import Mathlib

/-!
Formal model of the documentation-update tool (`tools/update-docs.ts`).

The tool rewrites the markdown documentation file of every lint rule:
it regenerates the header (title, description, notes), the footer, the
YAML front matter, and normalizes `<eslint-code-block>` markup.  This
file embeds the rule descriptor and each text transformation as
executable Lean functions, mirroring the TypeScript source, and proves
properties of those functions.
-/

namespace UpdateDocs

/-- Whitespace characters relevant to `String.prototype.trim` and `\s`
for the inputs arising in this tool. -/
def isWs (c : Char) : Bool :=
  c = ' ' || c = '\t' || c = '\n' || c = '\r' || c = '\x0b' || c = '\x0c'

/-- `String.prototype.trim` on a character list. -/
def trimL (l : List Char) : List Char :=
  ((l.dropWhile isWs).reverse.dropWhile isWs).reverse

/-- The rule descriptor (`RuleModule` metadata, `meta.docs` flattened).
`categories` and `replacedBy` are nullable arrays in the source
(`string[] | null`); `Option` models the null case, which is falsy in
JS while any array (including an empty one) is truthy. -/
structure Rule where
  ruleId : String
  ruleName : String
  description : String
  categories : Option (List String)
  deprecated : Bool
  fixable : Bool
  replacedBy : Option (List String)
  extensionRule : Bool
deriving DecidableEq, Repr

/-- `Array.prototype.join(sep)`. -/
def joinSep (sep : String) : List String → String
  | [] => ""
  | [x] => x
  | x :: xs => x ++ sep ++ joinSep sep xs

/-- `formatItems` from `tools/update-docs.ts`: up to two items are joined
with " and ", three or more become "all of x, y and z". -/
def formatItems (items : List String) : String :=
  if items.length ≤ 2 then joinSep " and " items
  else "all of " ++ joinSep ", " items.dropLast ++ " and " ++ (items.getLast?.getD "")

/-- The markdown link for a replacement rule: `[yml/name](name.md) rule`. -/
def replacedLink (name : String) : String :=
  "[yml/" ++ name ++ "](" ++ name ++ ".md) rule"

/-- The deprecation note used when `replacedBy` is non-null. -/
def deprecatedNote (names : List String) : String :=
  "- :warning: This rule was **deprecated** and replaced by " ++
    formatItems (names.map replacedLink) ++ "."

/-- The deprecation note used when `replacedBy` is null. -/
def deprecatedPlain : String := "- :warning: This rule was **deprecated**."

/-- One preset badge, `` `"plugin:yml/cat"` ``. -/
def presetBadge (cat : String) : String := "`\"plugin:yml/" ++ cat ++ "\"`"

/-- The preset-membership note. -/
def presetNote (cats : List String) : String :=
  "- :gear: This rule is included in " ++ formatItems (cats.map presetBadge) ++ "."

/-- The auto-fix note. -/
def fixNote : String :=
  "- :wrench: The `--fix` option on the [command line](https://eslint.org/docs/user-guide/command-line-interface#fixing-problems) can automatically fix some of the problems reported by this rule."

/-- Lexicographic comparison of character lists, the order
`Array.prototype.sort()` uses on an array of strings. -/
def charListLe : List Char → List Char → Bool
  | [], _ => true
  | _ :: _, [] => false
  | a :: as, b :: bs =>
    if a < b then true
    else if b < a then false
    else charListLe as bs

/-- Lexicographic string comparison. -/
def strLe (a b : String) : Bool := charListLe a.data b.data

/-- `Array.prototype.sort()` on an array of strings sorts it
lexicographically; modelled by insertion sort under `strLe`. -/
def sortStrings (l : List String) : List String :=
  List.insertionSort (fun a b => strLe a b = true) l

/-- The list of notes `updateHeader` pushes, before the two trailing
empty strings that create the blank line. -/
def headerNotes (r : Rule) : List String :=
  (if r.deprecated then
    match r.replacedBy with
    | some names => [deprecatedNote names]
    | none => [deprecatedPlain]
   else
    match r.categories with
    | some cats => [presetNote (sortStrings cats)]
    | none => [])
  ++ (if r.fixable then [fixNote] else [])

/-- `categories.sort()` sorts the descriptor's array in place; the
descriptor that survives `updateHeader` therefore carries the sorted
list whenever the non-deprecated branch ran on a non-null array. -/
def updateHeaderRule (r : Rule) : Rule :=
  if r.deprecated then r
  else
    match r.categories with
    | some cats => { r with categories := some (sortStrings cats) }
    | none => r

/-- The freshly generated header text: title, description and notes
(with the blank line appended after a non-empty note list). -/
def headerStr (r : Rule) : String :=
  let notes := headerNotes r
  let notes := if notes.isEmpty then notes else notes ++ ["", ""]
  "# " ++ r.ruleId ++ "\n\n> " ++ r.description ++ "\n\n" ++ joinSep "\n" notes

/-! ### YAML front-matter values (`yamlValue`) -/

/-- Apply a character-wise rewriting everywhere (the effect of
`String.prototype.replace` with a global single-character pattern). -/
def perChar (f : Char → List Char) : List Char → List Char
  | [] => []
  | c :: cs => f c ++ perChar f cs

/-- `yamlValue`'s escaping for string values: first every backslash is
doubled, then every double quote gets a backslash. -/
def escStr (l : List Char) : List Char :=
  perChar (fun c => if c = '"' then ['\\', '"'] else [c])
    (perChar (fun c => if c = '\\' then ['\\', '\\'] else [c]) l)

/-- String-valued version of `escStr`. -/
def escS (v : String) : String := String.mk (escStr v.data)

/-- A front-matter value: a string (quoted and escaped) or a number
(emitted verbatim). -/
inductive YVal where
  | s (v : String)
  | n (v : Int)

/-- `yamlValue` from the source: strings are escaped and double-quoted,
other values are emitted verbatim. -/
def yamlValue : YVal → String
  | .s v => "\"" ++ escS v ++ "\""
  | .n v => toString v

/-- The generated front-matter block (`computed` in `updateFileIntro`). -/
def computedIntro (r : Rule) : String :=
  "---\n" ++
    joinSep "\n"
      ["pageClass: " ++ yamlValue (.s "rule-details"),
       "sidebarDepth: " ++ yamlValue (.n 0),
       "title: " ++ yamlValue (.s r.ruleId),
       "description: " ++ yamlValue (.s r.description)] ++
    "\n---\n"

/-- Single-pass escape of exactly backslash and double quote. -/
def escChar (c : Char) : List Char :=
  if c = '\\' || c = '"' then ['\\', c] else [c]

/-- Parser for the body of a YAML double-quoted scalar as emitted here:
a backslash must be followed by a backslash or a quote, a bare quote is
invalid. -/
def unescStr : List Char → Option (List Char)
  | [] => some []
  | c :: rest =>
    if c = '\\' then
      match rest with
      | [] => none
      | d :: rest2 =>
        if d = '\\' || d = '"' then (unescStr rest2).map (d :: ·) else none
    else if c = '"' then none
    else (unescStr rest).map (c :: ·)

/-! ### The header pattern

`updateHeader` locates the existing header with
`/#.+\n+[^\n]*\n+(?:- .+\n+)*\n+/u`-style pattern
`#.+\n+[^\n]*\n+(?:- .+\n+)*\n*` and replaces the first match, or
prepends the new header to the trimmed document when there is no match.
The executable matcher below reproduces the backtracking behaviour of
that regular expression. -/

/-- Length of the leading run of newline characters (`\n+`/`\n*`). -/
def nlRun : List Char → Nat
  | [] => 0
  | c :: t => if c = '\n' then nlRun t + 1 else 0

/-- Fuel-driven core of `cStar` (the fuel is an upper bound on the
number of loop iterations; each iteration consumes at least four
characters, so the input length is always enough fuel). -/
def cStarGo : Nat → List Char → Nat
  | 0, _ => 0
  | fuel + 1, a :: b :: t =>
    if a = '-' && b = ' ' then
      let body := t.takeWhile (fun x => x != '\n')
      if body.length = 0 then 0
      else
        let k := nlRun (t.drop body.length)
        if k = 0 then 0
        else 2 + body.length + k + cStarGo fuel (t.drop (body.length + k))
    else 0
  | _ + 1, _ => 0

/-- Total length consumed by the greedy loop `(?:- .+\n+)*` at a
position that starts a line. -/
def cStar (s : List Char) : Nat := cStarGo s.length s

/-- Length of the match of `#.+\n+[^\n]*\n+(?:- .+\n+)*\n*` at the head
of `s`, if any: a `#` line with at least one further character, a
newline run, then either (for a run of length at least 2) end of input
or an unterminated final chunk, or one more line, a newline run, and
the greedy list-item loop. -/
def matchHeaderAt (s : List Char) : Option Nat :=
  match s with
  | [] => none
  | c :: rest =>
    if c = '#' then
      let l0 := rest.takeWhile (fun x => x != '\n')
      if l0.length = 0 then none
      else
        let after0 := rest.drop l0.length
        let k0 := nlRun after0
        if k0 = 0 then none
        else
          let t := after0.drop k0
          if t.length = 0 then
            if 2 ≤ k0 then some (1 + l0.length + k0) else none
          else
            let m := t.takeWhile (fun x => x != '\n')
            let after1 := t.drop m.length
            let k1 := nlRun after1
            if k1 = 0 then
              if 2 ≤ k0 then some (1 + l0.length + k0) else none
            else
              some (1 + l0.length + k0 + m.length + k1 + cStar (after1.drop k1))
    else none

/-- Leftmost match of the header pattern: the text before the match and
the text after it. -/
def findHeader : List Char → Option (List Char × List Char)
  | [] => none
  | c :: cs =>
    match matchHeaderAt (c :: cs) with
    | some n => some ([], (c :: cs).drop n)
    | none =>
      match findHeader cs with
      | some (pre, rest) => some (c :: pre, rest)
      | none => none

/-- `updateHeader`'s effect on the document text: replace the first
header-pattern match with the generated header, or prepend the header
to the trimmed content followed by a newline.  (The replacement text is
spliced verbatim; `$`-substitution sequences inside rule metadata are
not modelled.) -/
def updateHeaderContent (r : Rule) (content : List Char) : List Char :=
  match findHeader content with
  | some (pre, rest) => pre ++ (headerStr r).data ++ rest
  | none => (headerStr r).data ++ trimL content ++ ['\n']

/-- A `DocFile` instance: the rule and the current document text. -/
structure DocFile where
  rule : Rule
  content : List Char
deriving DecidableEq, Repr

/-- `DocFile.updateHeader`: rewrites the content and (through the
in-place `categories.sort()`) the descriptor. -/
def DocFile.updateHeader (d : DocFile) : DocFile :=
  { rule := updateHeaderRule d.rule,
    content := updateHeaderContent d.rule d.content }

/-! ### Position lemmas for the header matcher -/

/-! ### Footer, code blocks, front-matter splice, and the run -/

/-- Discriminator: does the note start with the gear marker? -/
def isGear (s : String) : Bool := s.data.take 8 = "- :gear:".data

/-- The generated footer (`updateFooter`). -/
def footerStr (r : Rule) : String :=
  "## Implementation\n\n- [Rule source](https://github.com/ota-meshi/eslint-plugin-yml/blob/master/src/rules/" ++
    r.ruleName ++
    ".ts)\n- [Test source](https://github.com/ota-meshi/eslint-plugin-yml/blob/master/tests/src/rules/" ++
    r.ruleName ++ ".js)\n" ++
    (if r.extensionRule then
      "\n<sup>Taken with ❤️ [from ESLint core](https://eslint.org/docs/rules/" ++
        r.ruleName ++ ")</sup>\n"
     else "")

/-- `"## Implementation"`. -/
def impTag : List Char := "## Implementation".data

/-- Leftmost position where `/## Implementation[\s\S]+$/` matches: the
tag followed by at least one further character.  Returns the text
before the match. -/
def findFooter : List Char → Option (List Char)
  | [] => none
  | c :: cs =>
    if (c :: cs).take 17 = impTag ∧ 18 ≤ (c :: cs).length then some []
    else
      match findFooter cs with
      | some pre => some (c :: pre)
      | none => none

/-- `updateFooter`'s effect on the document text. -/
def updateFooterContent (r : Rule) (content : List Char) : List Char :=
  match findFooter content with
  | some pre => pre ++ (footerStr r).data
  | none => trimL content ++ ('\n' :: '\n' :: (footerStr r).data)

/-- `"<eslint-code-block"`. -/
def ecbTag : List Char := "<eslint-code-block".data

/-- The lazy group of `/<eslint-code-block(.*?)>/`: characters up to the
first `>`, failing on a newline or at the end of input. -/
def findGt : List Char → Option (List Char × List Char)
  | [] => none
  | c :: cs =>
    if c = '>' then some ([], cs)
    else if c = '\n' then none
    else
      match findGt cs with
      | some (g, r) => some (c :: g, r)
      | none => none

/-- Leftmost match of `/<eslint-code-block(.*?)>/`: the text before the
match, the group, and the text after the closing `>`. -/
def scanECB : List Char → Option (List Char × List Char × List Char)
  | [] => none
  | c :: cs =>
    if (c :: cs).take 18 = ecbTag then
      match findGt ((c :: cs).drop 18) with
      | some (g, r) => some ([], g, r)
      | none => (scanECB cs).map (fun x => (c :: x.1, x.2))
    else (scanECB cs).map (fun x => (c :: x.1, x.2))

/-- `String.prototype.split(/\s+/u)` on the group text. -/
def wsSplit : List Char → List (List Char)
  | [] => [[]]
  | c :: cs =>
    if isWs c then [] :: wsSplit cs
    else
      match wsSplit cs with
      | t :: ts => (c :: t) :: ts
      | [] => [[c]]

/-- `"fix"`. -/
def fixTok : List Char := "fix".data

/-- The group tokens after `.map(trim).filter(s => s && s !== "fix")`. -/
def ecbTokens (g : List Char) : List (List Char) :=
  (wsSplit g).filter (fun t => t != [] && t != fixTok)

/-- The replacement for one `<eslint-code-block ...>` tag: the kept
attributes, with `fix` prepended when the rule is fixable. -/
def ecbRepl (fx : Bool) (g : List Char) : List Char :=
  let ps := (if fx then [fixTok] else []) ++ ecbTokens g
  ecbTag ++ (ps.map (fun t => ' ' :: t)).flatten ++ ['>']

/-- The attribute text written between the tag name and the `>` by the
replacement: each kept token with a single space in front. -/
def spJoin (fx : Bool) (g : List Char) : List Char :=
  (((if fx then [fixTok] else []) ++ ecbTokens g).map (fun t => ' ' :: t)).flatten

/-- Fuel-driven global replace for `updateCodeBlocks`. -/
def ucbGo (fx : Bool) : Nat → List Char → List Char
  | 0, s => s
  | fuel + 1, s =>
    match scanECB s with
    | none => s
    | some (a, g, r) => a ++ ecbRepl fx g ++ ucbGo fx fuel r

/-- `updateCodeBlocks`'s effect on the document text. -/
def updateCodeBlocksContent (fx : Bool) (s : List Char) : List Char :=
  ucbGo fx s.length s

/-- Three backticks. -/
def bt3 : List Char := ['`', '`', '`']

/-- `"</eslint-code-block>"`. -/
def closeTag : List Char := "</eslint-code-block>".data

/-- After a `>`: does `\n+```` ``` follow (the tail of the first
`adjustCodeBlocks` pattern)? -/
def gtTailCont (m : List Char) : Bool :=
  decide (1 ≤ nlRun m) && ((m.drop (nlRun m)).take 3 == bt3)

/-- The lazy group of `/(<eslint-code-block([\s\S]*?)>)\n+```/`: scan for
the first `>` whose tail matches, collecting the group. -/
def findQ : List Char → Option (List Char × List Char)
  | [] => none
  | c :: cs =>
    if c = '>' && gtTailCont cs then some ([], cs)
    else
      match findQ cs with
      | some (g, t) => some (c :: g, t)
      | none => none

/-- Leftmost match of the first `adjustCodeBlocks` pattern: text before
the match, the group, the newline-run length, and the text after the
consumed triple backtick. -/
def scanR1 : List Char → Option (List Char × List Char × Nat × List Char)
  | [] => none
  | c :: cs =>
    if (c :: cs).take 18 = ecbTag then
      match findQ ((c :: cs).drop 18) with
      | some (g, m) => some ([], g, nlRun m, m.drop (nlRun m + 3))
      | none =>
        match scanR1 cs with
        | some (a, g, k, r) => some (c :: a, g, k, r)
        | none => none
    else
      match scanR1 cs with
      | some (a, g, k, r) => some (c :: a, g, k, r)
      | none => none

/-- Fuel-driven global replace of `$1\n+``` ` with `$1\n\n``` `. -/
def r1Go : Nat → List Char → List Char
  | 0, s => s
  | fuel + 1, s =>
    match scanR1 s with
    | none => s
    | some (a, g, _, r) =>
      a ++ ecbTag ++ g ++ '>' :: '\n' :: '\n' :: bt3 ++ r1Go fuel r

/-- First substitution of `adjustCodeBlocks`. -/
def r1 (s : List Char) : List Char := r1Go s.length s

/-- Match of `/```\n+<\/eslint-code-block>/` at the head: the run length
and the rest after the closing tag. -/
def r2Head (s : List Char) : Option (Nat × List Char) :=
  if s.take 3 = bt3 then
    let m := s.drop 3
    let k := nlRun m
    if 1 ≤ k ∧ (m.drop k).take 20 = closeTag then some (k, (m.drop k).drop 20)
    else none
  else none

/-- Leftmost match of the second `adjustCodeBlocks` pattern. -/
def scanR2 : List Char → Option (List Char × Nat × List Char)
  | [] => none
  | c :: cs =>
    match r2Head (c :: cs) with
    | some (k, r) => some ([], k, r)
    | none =>
      match scanR2 cs with
      | some (a, k, r) => some (c :: a, k, r)
      | none => none

/-- Fuel-driven global replace of `` ```\n+</eslint-code-block> `` with
`` ```\n\n</eslint-code-block> ``. -/
def r2Go : Nat → List Char → List Char
  | 0, s => s
  | fuel + 1, s =>
    match scanR2 s with
    | none => s
    | some (a, _, r) => a ++ bt3 ++ '\n' :: '\n' :: closeTag ++ r2Go fuel r

/-- Second substitution of `adjustCodeBlocks`. -/
def r2 (s : List Char) : List Char := r2Go s.length s

/-- `adjustCodeBlocks`'s effect on the document text: both
substitutions in source order. -/
def adjustCodeBlocksContent (s : List Char) : List Char := r2 (r1 s)

/-- The shape of `r2`'s rewrites: `GRel u v` holds when `v` is obtained
from `u` by replacing newline runs that sit between a fenced-code close
and a `</eslint-code-block>` tag with runs of length two.  The `seg`
constructor keeps the count of leading backticks general (`i ≤ 3`) so
that the relation is stable under taking tails inside the backtick
fence. -/
inductive GRel : List Char → List Char → Prop where
  | nil : GRel [] []
  | cons (c : Char) (u v : List Char) : GRel u v → GRel (c :: u) (c :: v)
  | seg (i k : Nat) (u v : List Char) : i ≤ 3 → 1 ≤ k → GRel u v →
      GRel (List.replicate i '`' ++ List.replicate k '\n' ++ closeTag ++ u)
        (List.replicate i '`' ++ List.replicate 2 '\n' ++ closeTag ++ v)

/-- Fuel-driven scan for the front-matter pattern
`^---\n(.*\n)+---\n*` applied to the text after the opening `---\n`:
the loop consumes whole newline-terminated lines; the greedy `+` makes
the match extend to the last line position where `---` follows, and the
trailing `\n*` then consumes the newline run.  Returns the consumed
length. -/
def fiScanGo : Nat → List Char → Option Nat
  | 0, _ => none
  | fuel + 1, t =>
    let l := t.takeWhile (fun c => c != '\n')
    if l.length = t.length then none
    else
      let rest := t.drop (l.length + 1)
      match fiScanGo fuel rest with
      | some n => some (l.length + 1 + n)
      | none =>
        if rest.take 3 = ['-', '-', '-'] then
          some (l.length + 1 + 3 + nlRun (rest.drop 3))
        else none

/-- Scan for the front-matter pattern body. -/
def fiScan (t : List Char) : Option Nat := fiScanGo t.length t

/-- Does the text contain a line (after the first) beginning with
`---`?  Exactly the positions the front-matter scan can re-anchor on. -/
def hasDashLine : List Char → Bool
  | [] => false
  | c :: t =>
    if c = '\n' ∧ t.take 3 = ['-', '-', '-'] then true else hasDashLine t

/-- `updateFileIntro`'s effect on the document text. -/
def updateFileIntroContent (r : Rule) (content : List Char) : List Char :=
  if content.take 4 = ['-', '-', '-', '\n'] then
    match fiScan (content.drop 4) with
    | some n => (computedIntro r).data ++ content.drop (4 + n)
    | none => (computedIntro r).data ++ trimL content ++ ['\n']
  else (computedIntro r).data ++ trimL content ++ ['\n']

/-- `DocFile.updateFooter`. -/
def DocFile.updateFooter (d : DocFile) : DocFile :=
  { d with content := updateFooterContent d.rule d.content }

/-- `DocFile.updateCodeBlocks`. -/
def DocFile.updateCodeBlocks (d : DocFile) : DocFile :=
  { d with content := updateCodeBlocksContent d.rule.fixable d.content }

/-- `DocFile.updateFileIntro`. -/
def DocFile.updateFileIntro (d : DocFile) : DocFile :=
  { d with content := updateFileIntroContent d.rule d.content }

/-- `DocFile.adjustCodeBlocks`. -/
def DocFile.adjustCodeBlocks (d : DocFile) : DocFile :=
  { d with content := adjustCodeBlocksContent d.content }

/-- The full transformation chain applied to one document, in source
order. -/
def processContent (r : Rule) (c : List Char) : List Char :=
  ((((DocFile.updateHeader ⟨r, c⟩).updateFooter).updateCodeBlocks).updateFileIntro).adjustCodeBlocks.content

/-- The file system: a map from paths to file contents. -/
def FileSys : Type := String → Option (List Char)

/-- The documentation file of a rule, `docs/rules/<name>.md`. -/
def docPath (r : Rule) : String := "docs/rules/" ++ r.ruleName ++ ".md"

/-- Platform line ending. -/
def eolOf (isWin : Bool) : List Char := if isWin then ['\r', '\n'] else ['\n']

/-- `write`'s line-ending normalization, `/\r?\n/g`. -/
def normEol (isWin : Bool) : List Char → List Char
  | [] => []
  | '\r' :: '\n' :: rest => eolOf isWin ++ normEol isWin rest
  | '\n' :: rest => eolOf isWin ++ normEol isWin rest
  | c :: rest => c :: normEol isWin rest

/-- Update one file in the file system. -/
def updateFS (fs : FileSys) (p : String) (v : List Char) : FileSys :=
  fun q => if q = p then some v else fs q

/-- Processing of one rule: `DocFile.read` (which throws when the file
is missing — modelled by `none`, aborting with no write), the
transformation chain, and the write. -/
def runRule (isWin : Bool) (fs : FileSys) (r : Rule) : Option FileSys :=
  match fs (docPath r) with
  | none => none
  | some c => some (updateFS fs (docPath r) (normEol isWin (processContent r c)))

/-! ## Theorems -/

theorem charListLe_total (x y : List Char) :
    charListLe x y = true ∨ charListLe y x = true := by
  induction x generalizing y with
  | nil => exact Or.inl rfl
  | cons a as ih =>
    cases y with
    | nil => exact Or.inr rfl
    | cons b bs =>
      by_cases hab : a < b
      · left; simp [charListLe, hab]
      · by_cases hba : b < a
        · right; simp [charListLe, hba]
        · rcases ih bs with h | h
          · left; simp [charListLe, hab, hba, h]
          · right; simp [charListLe, hab, hba, h]

theorem charListLe_trans {x y z : List Char} (h1 : charListLe x y = true)
    (h2 : charListLe y z = true) : charListLe x z = true := by
  induction x generalizing y z with
  | nil => rfl
  | cons a as ih =>
    cases y with
    | nil => simp [charListLe] at h1
    | cons b bs =>
      cases z with
      | nil => simp [charListLe] at h2
      | cons c cs =>
        by_cases hab : a < b
        · by_cases hbc : b < c
          · simp [charListLe, lt_trans hab hbc]
          · by_cases hcb : c < b
            · simp [charListLe, hbc, hcb] at h2
            · have : b = c := le_antisymm (not_lt.mp hcb) (not_lt.mp hbc)
              subst this
              simp [charListLe, hab]
        · by_cases hba : b < a
          · simp [charListLe, hab, hba] at h1
          · have hEq : a = b := le_antisymm (not_lt.mp hba) (not_lt.mp hab)
            subst hEq
            by_cases hbc : a < c
            · simp [charListLe, hbc]
            · by_cases hcb : c < a
              · simp [charListLe, hbc, hcb] at h2
              · simp only [charListLe, if_neg hab, if_neg hba] at h1
                simp only [charListLe, if_neg hbc, if_neg hcb] at h2 ⊢
                exact ih h1 h2

instance : IsTotal String (fun a b => strLe a b = true) :=
  ⟨fun a b => charListLe_total a.data b.data⟩

instance : IsTrans String (fun a b => strLe a b = true) :=
  ⟨fun _ _ _ h1 h2 => charListLe_trans h1 h2⟩

theorem perChar_append (f : Char → List Char) (a b : List Char) :
    perChar f (a ++ b) = perChar f a ++ perChar f b := by
  induction a with
  | nil => rfl
  | cons c cs ih => simp [perChar, ih]

theorem escStr_eq_perChar (l : List Char) : escStr l = perChar escChar l := by
  induction l with
  | nil => rfl
  | cons c cs ih =>
    simp only [escStr, perChar] at *
    rw [perChar_append]
    by_cases hb : c = '\\'
    · subst hb
      simpa [perChar, escChar] using ih
    · by_cases hq : c = '"'
      · subst hq
        simpa [perChar, escChar] using ih
      · simpa [perChar, escChar, hb, hq] using ih

theorem unesc_escChar (l : List Char) :
    unescStr (perChar escChar l) = some l := by
  induction l with
  | nil => rfl
  | cons c cs ih =>
    by_cases hb : c = '\\'
    · subst hb
      simp [perChar, escChar, unescStr, ih]
    · by_cases hq : c = '"'
      · subst hq
        simp [perChar, escChar, unescStr, ih]
      · have hc : escChar c = [c] := by simp [escChar, hb, hq]
        rw [perChar, hc, List.singleton_append, unescStr.eq_def]
        simp [hb, hq, ih]

/-- Round trip: the escaping used by `yamlValue` parses back to the
original string. -/
theorem unesc_escStr (l : List Char) : unescStr (escStr l) = some l := by
  rw [escStr_eq_perChar]; exact unesc_escChar l

theorem nlRun_le (x : List Char) : nlRun x ≤ x.length := by
  induction x with
  | nil => simp [nlRun]
  | cons c t ih =>
    by_cases h : c = '\n'
    · simp only [nlRun, h, if_true, List.length_cons]
      omega
    · simp [nlRun, h]

theorem drop_nlRun_head (x : List Char) :
    (x.drop (nlRun x)).head? ≠ some '\n' := by
  induction x with
  | nil => simp [nlRun]
  | cons c t ih =>
    by_cases h : c = '\n'
    · simpa [nlRun, h] using ih
    · simp [nlRun, h]

theorem drop_drop' {α : Type} (l : List α) (m n : Nat) :
    (l.drop m).drop n = l.drop (m + n) := by
  rw [List.drop_drop]

theorem cStarGo_drop_head (fuel : Nat) :
    ∀ w : List Char, w.head? ≠ some '\n' →
      (w.drop (cStarGo fuel w)).head? ≠ some '\n' := by
  induction fuel with
  | zero =>
    intro w hw
    simpa [cStarGo] using hw
  | succ m ih =>
    intro w hw
    match w with
    | [] => simp [cStarGo]
    | [a] =>
      simp only [cStarGo, List.drop_zero]
      simpa using hw
    | a :: b :: t =>
      rw [cStarGo]
      by_cases hab : a = '-' && b = ' '
      · simp only [hab, if_true]
        by_cases hbody : (t.takeWhile (fun x => x != '\n')).length = 0
        · simpa [hbody] using hw
        · simp only [hbody, if_false]
          by_cases hk : nlRun (t.drop (t.takeWhile (fun x => x != '\n')).length) = 0
          · simpa [hk] using hw
          · simp only [hk, if_false]
            set body := (t.takeWhile (fun x => x != '\n')).length with hbdef
            set k := nlRun (t.drop body) with hkdef
            have hdd : (a :: b :: t).drop (2 + body + k + cStarGo m (t.drop (body + k))) =
                (t.drop (body + k)).drop (cStarGo m (t.drop (body + k))) := by
              have he : 2 + body + k + cStarGo m (t.drop (body + k)) =
                  (body + k + cStarGo m (t.drop (body + k))) + 1 + 1 := by omega
              rw [he, List.drop_succ_cons, List.drop_succ_cons, drop_drop']
            rw [hdd]
            have hhead : (t.drop (body + k)).head? ≠ some '\n' := by
              have := drop_nlRun_head (t.drop body)
              rwa [drop_drop', ← hkdef] at this
            exact ih _ hhead
      · simpa [hab] using hw

theorem cStar_drop_head (w : List Char) (hw : w.head? ≠ some '\n') :
    (w.drop (cStar w)).head? ≠ some '\n' :=
  cStarGo_drop_head w.length w hw

/-- A header-pattern match never ends directly before a newline: the
trailing `\n*` is greedy. -/
theorem matchHeaderAt_drop_head {s : List Char} {n : Nat}
    (h : matchHeaderAt s = some n) : (s.drop n).head? ≠ some '\n' := by
  match s with
  | [] => simp [matchHeaderAt] at h
  | c :: rest =>
    simp only [matchHeaderAt] at h
    by_cases hc : c = '#'
    · simp only [hc, if_true] at h
      set l0 := rest.takeWhile (fun x => x != '\n') with hl0
      set after0 := rest.drop l0.length with ha0
      set k0 := nlRun after0 with hk0
      set t := after0.drop k0 with htdef
      by_cases h1 : l0.length = 0
      · simp [h1] at h
      · simp only [h1, if_false] at h
        by_cases h2 : k0 = 0
        · simp [h2] at h
        · simp only [h2, if_false] at h
          have hdrop_t : (c :: rest).drop (1 + l0.length + k0) = t := by
            have he : 1 + l0.length + k0 = (l0.length + k0) + 1 := by omega
            rw [he, List.drop_succ_cons, ← drop_drop', ← ha0, ← htdef]
          have ht_head : t.head? ≠ some '\n' := by
            rw [htdef, hk0]
            exact drop_nlRun_head after0
          by_cases h3 : t.length = 0
          · simp only [h3, if_true] at h
            by_cases h4 : 2 ≤ k0
            · simp only [h4, if_true, Option.some.injEq] at h
              subst h
              rw [hdrop_t]
              exact ht_head
            · simp [h4] at h
          · simp only [h3, if_false] at h
            set m := t.takeWhile (fun x => x != '\n') with hm
            set after1 := t.drop m.length with ha1
            set k1 := nlRun after1 with hk1
            by_cases h5 : k1 = 0
            · simp only [h5, if_true] at h
              by_cases h4 : 2 ≤ k0
              · simp only [h4, if_true, Option.some.injEq] at h
                subst h
                rw [hdrop_t]
                exact ht_head
              · simp [h4] at h
            · simp only [h5, if_false, Option.some.injEq] at h
              subst h
              have hkey : (after1.drop k1).head? ≠ some '\n' := by
                rw [hk1]
                exact drop_nlRun_head after1
              have hfin := cStar_drop_head (after1.drop k1) hkey
              set w1 := after1.drop k1 with hw1
              set cw := cStar w1 with hcw
              have hdrop_w :
                  (c :: rest).drop (1 + l0.length + k0 + m.length + k1 + cw) =
                    w1.drop cw := by
                have he : 1 + l0.length + k0 + m.length + k1 + cw =
                    (l0.length + k0 + m.length + k1 + cw) + 1 := by omega
                rw [he, List.drop_succ_cons, hw1, ha1, htdef, ha0]
                rw [drop_drop', drop_drop', drop_drop', drop_drop']
                congr 1
                omega
              rw [hdrop_w]
              exact hfin
    · simp [hc] at h

/-- The text after a replaced header never starts with a newline. -/
theorem findHeader_rest :
    ∀ {s pre rest : List Char}, findHeader s = some (pre, rest) →
      rest.head? ≠ some '\n' := by
  intro s
  induction s with
  | nil => intro pre rest h; simp [findHeader] at h
  | cons c cs ih =>
    intro pre rest h
    simp only [findHeader] at h
    cases hm : matchHeaderAt (c :: cs) with
    | some n =>
      rw [hm] at h
      simp only [Option.some.injEq, Prod.mk.injEq] at h
      obtain ⟨_, hrest⟩ := h
      subst hrest
      exact matchHeaderAt_drop_head hm
    | none =>
      rw [hm] at h
      cases hf : findHeader cs with
      | some pr =>
        obtain ⟨pre0, rest0⟩ := pr
        rw [hf] at h
        simp only [Option.some.injEq, Prod.mk.injEq] at h
        obtain ⟨_, hrest⟩ := h
        subst hrest
        exact ih hf
      | none => rw [hf] at h; simp at h

/-! ### Lemmas about `trimL` -/

theorem dropWhile_head_not (p : Char → Bool) (l : List Char) {c : Char}
    (h : (l.dropWhile p).head? = some c) : p c = false := by
  induction l with
  | nil => simp [List.dropWhile] at h
  | cons x t ih =>
    by_cases hx : p x
    · rw [List.dropWhile_cons_of_pos hx] at h
      exact ih h
    · rw [List.dropWhile_cons_of_neg hx] at h
      simp only [List.head?_cons, Option.some.injEq] at h
      subst h
      simpa using hx

theorem dropWhile_append_single (p : Char → Bool) (a : Char) (ha : p a = false)
    (xs : List Char) : ∃ ys, (xs ++ [a]).dropWhile p = ys ++ [a] := by
  induction xs with
  | nil =>
    refine ⟨[], ?_⟩
    simp only [List.nil_append]
    rw [List.dropWhile_cons_of_neg (by simp [ha])]
  | cons x t ih =>
    by_cases hx : p x
    · obtain ⟨ys, hy⟩ := ih
      refine ⟨ys, ?_⟩
      rw [List.cons_append, List.dropWhile_cons_of_pos hx, hy]
    · refine ⟨x :: t, ?_⟩
      rw [List.cons_append, List.dropWhile_cons_of_neg hx]

/-- The first character of a trimmed non-empty text is not whitespace. -/
theorem trimL_head {l : List Char} {c : Char} (h : (trimL l).head? = some c) :
    isWs c = false := by
  unfold trimL at h
  cases hdc : l.dropWhile isWs with
  | nil => rw [hdc] at h; simp at h
  | cons a t =>
    have ha : isWs a = false := by
      apply dropWhile_head_not isWs l
      rw [hdc]; rfl
    obtain ⟨ys, hy⟩ := dropWhile_append_single isWs a ha t.reverse
    rw [hdc] at h
    rw [show (a :: t).reverse = t.reverse ++ [a] by simp] at h
    rw [hy] at h
    simp only [List.reverse_append, List.reverse_cons, List.reverse_nil,
      List.nil_append, List.cons_append, List.head?_cons, Option.some.injEq] at h
    subst h
    exact ha


/-! ### Small helper lemmas -/

theorem data_append (a b : String) : (a ++ b).data = a.data ++ b.data := rfl

/-- The generated header for a non-deprecated fixable rule with a
present category array: title, description, gear note, wrench note, one
blank line. -/
theorem headerStr_data (r : Rule) (cats : List String)
    (hd : r.deprecated = false) (hf : r.fixable = true)
    (hc : r.categories = some cats) :
    (headerStr r).data =
      ("# " ++ r.ruleId ++ "\n\n> " ++ r.description ++ "\n\n" ++
        presetNote (sortStrings cats) ++ "\n" ++ fixNote).data ++ ['\n', '\n'] := by
  have hnotes : headerNotes r = [presetNote (sortStrings cats), fixNote] := by
    simp [headerNotes, hd, hc, hf]
  have e0 : "".data = ([] : List Char) := rfl
  have e1 : "\n".data = ['\n'] := rfl
  simp only [headerStr, hnotes]
  simp [joinSep, data_append, e0, e1, List.append_assoc]

theorem take_append_left {α : Type} (a b : List α) {n : Nat} (h : n ≤ a.length) :
    (a ++ b).take n = a.take n := by
  induction a generalizing n with
  | nil => simp at h; simp [h]
  | cons x xs ih =>
    cases n with
    | zero => rfl
    | succ m => simpa using ih (Nat.succ_le_succ_iff.mp h)

theorem isGear_presetNote (cats : List String) : isGear (presetNote cats) = true := by
  have h : (presetNote cats).data =
      "- :gear: This rule is included in ".data ++
        (formatItems (cats.map presetBadge) ++ ".").data := rfl
  rw [isGear, h, take_append_left]
  · decide
  · decide

theorem isGear_fixNote : isGear fixNote = false := by decide

theorem presetNote_ne_fixNote (cats : List String) : presetNote cats ≠ fixNote := by
  intro h
  have := isGear_presetNote cats
  rw [h, isGear_fixNote] at this
  exact Bool.false_ne_true this

/-! ### C1: deprecation-note text -/

/-- For three replacement rules `a`, `b`, `c` the generated note does not
read `...replaced by all of [a](a.md) rule, [b](b.md) rule and
[c](c.md) rule.` — the link text carries the plugin prefix `yml/`. -/
theorem c1_counterexample :
    deprecatedNote ["a", "b", "c"] ≠
      "- :warning: This rule was **deprecated** and replaced by all of [a](a.md) rule, [b](b.md) rule and [c](c.md) rule." := by
  decide

/-- C1 (amended): for a deprecated rule with replacement rules A, B, C the
header note reads `...replaced by all of [yml/A](A.md) rule,
[yml/B](B.md) rule and [yml/C](C.md) rule.`; the list grammar renders a
single item by itself, two items as "A and B", and three as
"all of A, B and C". -/
theorem c1_amended (A B C : String) :
    (∀ r : Rule, r.deprecated = true → r.replacedBy = some [A, B, C] →
      headerNotes r = [deprecatedNote [A, B, C]] ++ (if r.fixable then [fixNote] else [])) ∧
    deprecatedNote [A, B, C] =
      "- :warning: This rule was **deprecated** and replaced by " ++
        ("all of " ++ (replacedLink A ++ ", " ++ replacedLink B) ++ " and " ++ replacedLink C) ++
        "." ∧
    (∀ X : String, replacedLink X = "[yml/" ++ X ++ "](" ++ X ++ ".md) rule") ∧
    formatItems [A] = A ∧
    formatItems [A, B] = A ++ " and " ++ B ∧
    formatItems [A, B, C] = "all of " ++ (A ++ ", " ++ B) ++ " and " ++ C := by
  refine ⟨fun r hd hr => ?_, rfl, fun X => rfl, rfl, rfl, rfl⟩
  simp [headerNotes, hd, hr]

/-- Witness for `c1_amended` at A = "a", B = "b", C = "c" and a concrete
deprecated rule. -/
theorem c1_amended_witness :
    headerNotes
        { ruleId := "yml/old", ruleName := "old", description := "d",
          categories := none, deprecated := true, fixable := false,
          replacedBy := some ["a", "b", "c"], extensionRule := false } =
      [deprecatedNote ["a", "b", "c"]] ++ (if false then [fixNote] else []) :=
  (c1_amended "a" "b" "c").1 _ rfl rfl

/-! ### C2: the header rewrite and the descriptor -/

/-- The header rewrite does not leave every descriptor unchanged:
`categories.sort()` sorts the preset list in place. -/
theorem c2_counterexample :
    updateHeaderRule
        { ruleId := "yml/x", ruleName := "x", description := "d",
          categories := some ["b", "a"], deprecated := false, fixable := false,
          replacedBy := none, extensionRule := false } ≠
      { ruleId := "yml/x", ruleName := "x", description := "d",
        categories := some ["b", "a"], deprecated := false, fixable := false,
        replacedBy := none, extensionRule := false } := by
  decide

/-- C2 (amended): the header rewrite leaves every descriptor field
unchanged except that, for a non-deprecated rule with a non-null
category list, the category list is sorted in place (a permutation of
the original); a deprecated rule's descriptor is untouched. -/
theorem c2_amended (r : Rule) :
    (updateHeaderRule r).ruleId = r.ruleId ∧
    (updateHeaderRule r).ruleName = r.ruleName ∧
    (updateHeaderRule r).description = r.description ∧
    (updateHeaderRule r).deprecated = r.deprecated ∧
    (updateHeaderRule r).fixable = r.fixable ∧
    (updateHeaderRule r).replacedBy = r.replacedBy ∧
    (updateHeaderRule r).extensionRule = r.extensionRule ∧
    ((updateHeaderRule r).categories.getD []).Perm (r.categories.getD []) ∧
    ((updateHeaderRule r).categories = none ↔ r.categories = none) ∧
    (r.deprecated = true → updateHeaderRule r = r) := by
  obtain ⟨id, nm, ds, cats, dep, fx, rb, ex⟩ := r
  cases dep with
  | true => simp [updateHeaderRule]
  | false =>
    cases cats with
    | none => simp [updateHeaderRule]
    | some l =>
      simp only [updateHeaderRule]
      refine ⟨rfl, rfl, rfl, rfl, rfl, rfl, rfl, ?_, by simp, by simp⟩
      simpa [sortStrings] using
        List.perm_insertionSort (fun a b : String => strLe a b = true) l

/-- Witness instantiating `c2_amended` at a concrete descriptor. -/
theorem c2_amended_witness :
    (updateHeaderRule
          { ruleId := "yml/x", ruleName := "x", description := "d",
            categories := some ["b", "a"], deprecated := false, fixable := false,
            replacedBy := none, extensionRule := false }).categories =
        some ["a", "b"] ∧
    ((updateHeaderRule
          { ruleId := "yml/x", ruleName := "x", description := "d",
            categories := some ["b", "a"], deprecated := false, fixable := false,
            replacedBy := none, extensionRule := false }).categories.getD []).Perm
      ["b", "a"] :=
  ⟨by decide,
    (c2_amended
      { ruleId := "yml/x", ruleName := "x", description := "d",
        categories := some ["b", "a"], deprecated := false, fixable := false,
        replacedBy := none, extensionRule := false }).2.2.2.2.2.2.2.1⟩

/-! ### C3: preset-membership note -/

/-- A non-deprecated rule whose category array is present but empty still
gets a (degenerate) preset note, so "a rule with no preset memberships
gets no preset note" fails as stated. -/
theorem c3_counterexample :
    headerNotes
        { ruleId := "yml/x", ruleName := "x", description := "d",
          categories := some [], deprecated := false, fixable := false,
          replacedBy := none, extensionRule := false } =
      ["- :gear: This rule is included in ."] := by
  decide

/-- C3 (amended): for a non-deprecated rule the preset note is emitted iff
the category array is non-null (truthy): a null category field yields no
gear note, while a present array — even an empty one — yields exactly one
gear note, built from the lexically sorted array. -/
theorem c3_amended (r : Rule) (hd : r.deprecated = false) :
    (∀ cats, r.categories = some cats →
      headerNotes r = presetNote (sortStrings cats) :: (if r.fixable then [fixNote] else []) ∧
      (sortStrings cats).Perm cats ∧
      List.Sorted (fun a b : String => strLe a b = true) (sortStrings cats)) ∧
    (r.categories = none → ∀ cats, presetNote cats ∉ headerNotes r) := by
  constructor
  · intro cats hc
    refine ⟨by simp [headerNotes, hd, hc], ?_, ?_⟩
    · simpa [sortStrings] using
        List.perm_insertionSort (fun a b : String => strLe a b = true) cats
    · simpa [sortStrings] using
        List.sorted_insertionSort (fun a b : String => strLe a b = true) cats
  · intro hc cats hmem
    simp [headerNotes, hd, hc] at hmem
    rcases hmem with ⟨hfix, habs⟩
    exact presetNote_ne_fixNote cats habs

/-- Witness instantiating `c3_amended` at a concrete descriptor with
presets `["strict", "recommended"]`. -/
theorem c3_amended_witness :
    headerNotes
        { ruleId := "yml/x", ruleName := "x", description := "d",
          categories := some ["strict", "recommended"], deprecated := false,
          fixable := false, replacedBy := none, extensionRule := false } =
      presetNote (sortStrings ["strict", "recommended"]) ::
        (if false then [fixNote] else []) :=
  ((c3_amended _ rfl).1 ["strict", "recommended"] rfl).1

/-! ### Front-matter scan lemmas (for C7) -/

theorem drop_append_len {α : Type} (a b : List α) (n : Nat) :
    (a ++ b).drop (a.length + n) = b.drop n := by
  rw [← drop_drop', List.drop_left]

theorem takeWhile_nl_append (l1 X : List Char) (h : ∀ c ∈ l1, c ≠ '\n') :
    (l1 ++ '\n' :: X).takeWhile (fun c => c != '\n') = l1 ∧
    (l1 ++ '\n' :: X).drop (l1.length + 1) = X := by
  induction l1 with
  | nil =>
    constructor
    · simp [List.takeWhile]
    · simp
  | cons c t ih =>
    have hc : c ≠ '\n' := h c (List.mem_cons_self c t)
    have ih2 := ih (fun x hx => h x (List.mem_cons_of_mem c hx))
    constructor
    · rw [List.cons_append, List.takeWhile_cons_of_pos (by simpa using hc), ih2.1]
    · rw [List.cons_append]
      have he : (c :: t).length + 1 = (t.length + 1) + 1 := by simp
      rw [he, List.drop_succ_cons, ih2.2]

theorem mid_decomp (mid : List Char) :
    mid ≠ [] → mid.getLast? = some '\n' →
    ∃ l1 mid2, mid = l1 ++ '\n' :: mid2 ∧ (∀ c ∈ l1, c ≠ '\n') ∧
      (mid2 = [] ∨ (mid2 ≠ [] ∧ mid2.getLast? = some '\n')) := by
  induction mid with
  | nil => intro h; exact absurd rfl h
  | cons c t ih =>
    intro _ h2
    by_cases hc : c = '\n'
    · subst hc
      refine ⟨[], t, rfl, by simp, ?_⟩
      cases ht : t with
      | nil => exact Or.inl rfl
      | cons x xs =>
        right
        refine ⟨by simp, ?_⟩
        rw [ht] at h2
        rwa [List.getLast?_cons_cons] at h2
    · cases ht : t with
      | nil =>
        rw [ht] at h2
        simp only [List.getLast?_singleton, Option.some.injEq] at h2
        exact absurd h2 hc
      | cons x xs =>
        rw [ht] at h2
        rw [List.getLast?_cons_cons] at h2
        obtain ⟨l1, mid2, hdec, hfree, hrest⟩ := ih (by rw [ht]; simp) (by rw [ht]; exact h2)
        refine ⟨c :: l1, mid2, ?_, ?_, hrest⟩
        · rw [ht] at hdec
          simp [hdec]
        · intro x hx
          rcases List.mem_cons.mp hx with hx | hx
          · subst hx; exact hc
          · exact hfree x hx

theorem hasDashLine_tail {c : Char} {t : List Char}
    (h : hasDashLine (c :: t) = false) : hasDashLine t = false := by
  rw [hasDashLine] at h
  split at h
  · exact absurd h (by simp)
  · exact h

theorem hasDashLine_seam {t : List Char}
    (h : hasDashLine ('\n' :: t) = false) : t.take 3 ≠ ['-', '-', '-'] := by
  intro hq
  rw [hasDashLine, if_pos ⟨rfl, hq⟩] at h
  simp at h

theorem hasDashLine_suffix :
    ∀ {a b : List Char}, hasDashLine (a ++ b) = false → hasDashLine b = false := by
  intro a
  induction a with
  | nil => intro b h; exact h
  | cons c t ih =>
    intro b h
    exact ih (hasDashLine_tail h)

theorem nlRun_head_zero {x : List Char} (h : x.head? ≠ some '\n') : nlRun x = 0 := by
  cases x with
  | nil => rfl
  | cons c t =>
    simp only [List.head?_cons, ne_eq, Option.some.injEq] at h
    simp [nlRun, h]

theorem fiScanGo_none (fuel : Nat) :
    ∀ u : List Char, hasDashLine u = false → fiScanGo fuel u = none := by
  induction fuel with
  | zero => intro u _; rfl
  | succ m ih =>
    intro u h
    rw [fiScanGo]
    by_cases hl : (u.takeWhile (fun c => c != '\n')).length = u.length
    · simp [hl]
    · simp only [hl, if_false]
      have hdec := List.takeWhile_append_dropWhile (p := fun c => c != '\n') (l := u)
      have hdne : u.dropWhile (fun c => c != '\n') ≠ [] := by
        intro hd
        apply hl
        conv_rhs => rw [← hdec]
        rw [hd, List.append_nil]
      obtain ⟨dh, dt, hdht⟩ := List.exists_cons_of_ne_nil hdne
      have hdh : dh = '\n' := by
        have hhd := dropWhile_head_not (fun c => c != '\n') u (c := dh) (by rw [hdht]; rfl)
        simpa using hhd
      set l := u.takeWhile (fun c => c != '\n') with hldef
      have hu : u = l ++ '\n' :: dt := by
        rw [← hdec, hdht, hdh]
      have hrest0 : u.drop (l.length + 1) = dt := by
        rw [hu, drop_append_len]
        rfl
      have hud : hasDashLine ('\n' :: dt) = false := by
        have h2 : hasDashLine (l ++ '\n' :: dt) = false := by rw [← hu]; exact h
        exact hasDashLine_suffix h2
      rw [hrest0, ih dt (hasDashLine_tail hud)]
      simp only [if_neg (hasDashLine_seam hud)]

theorem fiScanGo_some :
    ∀ (fuel : Nat) (mid rest : List Char), mid ≠ [] → mid.getLast? = some '\n' →
      hasDashLine rest = false →
      mid.length + 3 + rest.length ≤ fuel →
      fiScanGo fuel (mid ++ '-' :: '-' :: '-' :: rest) =
        some (mid.length + 3 + nlRun rest) := by
  intro fuel
  induction fuel with
  | zero =>
    intro mid rest h1 _ _ hb
    cases mid with
    | nil => exact absurd rfl h1
    | cons c t =>
      simp only [List.length_cons] at hb
      omega
  | succ m ih =>
    intro mid rest h1 h2 h4 hb
    obtain ⟨l1, mid2, hdec, hfree, hrest⟩ := mid_decomp mid h1 h2
    subst hdec
    rw [List.append_assoc, List.cons_append]
    rw [fiScanGo]
    have htw := takeWhile_nl_append l1 (mid2 ++ '-' :: '-' :: '-' :: rest) hfree
    rw [htw.1, htw.2]
    have hlen : l1.length ≠ (l1 ++ '\n' :: (mid2 ++ '-' :: '-' :: '-' :: rest)).length := by
      simp only [List.length_append, List.length_cons]
      omega
    rw [if_neg hlen]
    rcases hrest with hmid2 | ⟨hm2ne, hm2last⟩
    · subst hmid2
      have hnone : fiScanGo m ('-' :: '-' :: '-' :: rest) = none := by
        apply fiScanGo_none
        simp only [hasDashLine]
        rw [if_neg (by simp), if_neg (by simp), if_neg (by simp)]
        exact h4
      simp only [List.nil_append, hnone]
      rw [if_pos (show ('-' :: '-' :: '-' :: rest).take 3 = ['-', '-', '-'] from rfl)]
      rw [show ('-' :: '-' :: '-' :: rest).drop 3 = rest from rfl]
      congr 1
      simp only [List.length_append, List.length_cons, List.length_nil]
    · have hcall := ih mid2 rest hm2ne hm2last h4 (by
        simp only [List.length_append, List.length_cons] at hb
        omega)
      simp only [hcall]
      congr 1
      simp only [List.length_append, List.length_cons]
      omega

/-! ### C7: front-matter replacement and what it preserves -/

/-- C7 fails as stated: with a document whose body contains a later
line beginning with `---`, the greedy pattern `^---\n(.*\n)+---\n*`
extends the match through that last line, so the text between the
first closing `---` and the later one (here `body`) is destroyed
rather than preserved. -/
theorem c7_counterexample :
    updateFileIntroContent
        { ruleId := "yml/x", ruleName := "x", description := "d",
          categories := none, deprecated := false, fixable := false,
          replacedBy := none, extensionRule := false }
        "---\na: 1\n---\nbody\n---\nmore\n".data =
      (computedIntro
          { ruleId := "yml/x", ruleName := "x", description := "d",
            categories := none, deprecated := false, fixable := false,
            replacedBy := none, extensionRule := false }).data ++ "more\n".data ∧
    (computedIntro
          { ruleId := "yml/x", ruleName := "x", description := "d",
            categories := none, deprecated := false, fixable := false,
            replacedBy := none, extensionRule := false }).data ++ "more\n".data ≠
      (computedIntro
          { ruleId := "yml/x", ruleName := "x", description := "d",
            categories := none, deprecated := false, fixable := false,
            replacedBy := none, extensionRule := false }).data ++
        "body\n---\nmore\n".data := by
  constructor
  · decide
  · decide

/-- C7 (amended): the front-matter rewrite replaces the region from the
opening `---` line through the *last* line that begins with `---`,
together with the newline run directly after that closing `---` (the
trailing `\n*` of the pattern).  When no later line begins with `---`,
everything after the closing `---` and its trailing newline run — in
particular the whole body of an ordinary front-matter document — is
preserved unchanged. -/
theorem c7_amended (r : Rule) (mid X : List Char)
    (h1 : mid ≠ []) (h2 : mid.getLast? = some '\n')
    (h4 : hasDashLine X = false) :
    updateFileIntroContent r
        ('-' :: '-' :: '-' :: '\n' :: (mid ++ '-' :: '-' :: '-' :: X)) =
      (computedIntro r).data ++ X.drop (nlRun X) := by
  unfold updateFileIntroContent
  rw [if_pos (show ('-' :: '-' :: '-' :: '\n' ::
      (mid ++ '-' :: '-' :: '-' :: X)).take 4 = ['-', '-', '-', '\n'] from rfl)]
  have hdrop4 : ('-' :: '-' :: '-' :: '\n' ::
      (mid ++ '-' :: '-' :: '-' :: X)).drop 4 = mid ++ '-' :: '-' :: '-' :: X := rfl
  rw [hdrop4]
  rw [fiScan, fiScanGo_some _ mid X h1 h2 h4 (by
    simp only [List.length_append, List.length_cons]
    omega)]
  simp only []
  have hdropn : ('-' :: '-' :: '-' :: '\n' ::
      (mid ++ '-' :: '-' :: '-' :: X)).drop (4 + (mid.length + 3)) = X := by
    have he : 4 + (mid.length + 3) = (mid.length + 3) + 1 + 1 + 1 + 1 := by omega
    rw [he, List.drop_succ_cons, List.drop_succ_cons, List.drop_succ_cons,
      List.drop_succ_cons]
    calc (mid ++ '-' :: '-' :: '-' :: X).drop (mid.length + 3)
        = ('-' :: '-' :: '-' :: X).drop 3 := drop_append_len mid _ 3
      _ = X := rfl
  have he2 : 4 + (mid.length + 3 + nlRun X) = 4 + (mid.length + 3) + nlRun X := by
    omega
  rw [he2, ← drop_drop', hdropn]

/-- Witness for `c7_amended`: the ordinary front-matter document
`---\na: 1\n---\nbody\n` — the closing `---` is a complete line, the
trailing newline run has length one, and the whole body `body\n` is
preserved. -/
theorem c7_amended_witness :
    (("a: 1\n".data : List Char) ≠ [] ∧
      "a: 1\n".data.getLast? = some '\n' ∧
      hasDashLine "\nbody\n".data = false) ∧
    ("\nbody\n".data : List Char).drop (nlRun "\nbody\n".data) = "body\n".data ∧
    updateFileIntroContent
        { ruleId := "yml/x", ruleName := "x", description := "d",
          categories := none, deprecated := false, fixable := false,
          replacedBy := none, extensionRule := false }
        ('-' :: '-' :: '-' :: '\n' ::
          ("a: 1\n".data ++ '-' :: '-' :: '-' :: "\nbody\n".data)) =
      (computedIntro
          { ruleId := "yml/x", ruleName := "x", description := "d",
            categories := none, deprecated := false, fixable := false,
            replacedBy := none, extensionRule := false }).data ++
        ("\nbody\n".data : List Char).drop (nlRun "\nbody\n".data) :=
  ⟨⟨by decide, by decide, by decide⟩, by decide,
    c7_amended _ _ _ (by decide) (by decide) (by decide)⟩

/-! ### C8: missing documentation file -/

/-- C8: when the documentation file of a rule is missing, the run for
that rule aborts at the read, before any transformation, and no file is
written: the resulting file system is `none`. -/
theorem c8_missing_file (isWin : Bool) (fs : FileSys) (r : Rule)
    (h : fs (docPath r) = none) : runRule isWin fs r = none := by
  unfold runRule
  rw [h]

/-- Witness for `c8_missing_file` on the empty file system. -/
theorem c8_missing_file_witness :
    runRule false (fun _ => none)
        { ruleId := "yml/x", ruleName := "x", description := "d",
          categories := none, deprecated := false, fixable := false,
          replacedBy := none, extensionRule := false } =
      none :=
  c8_missing_file false (fun _ => none) _ rfl

/-! ### Lemmas for `updateCodeBlocks` (C6) -/

theorem findGt_sound :
    ∀ {l g r : List Char}, findGt l = some (g, r) →
      l = g ++ '>' :: r ∧ '>' ∉ g ∧ '\n' ∉ g := by
  intro l
  induction l with
  | nil => intro g r h; simp [findGt] at h
  | cons c cs ih =>
    intro g r h
    rw [findGt] at h
    by_cases hgt : c = '>'
    · rw [if_pos hgt] at h
      simp only [Option.some.injEq, Prod.mk.injEq] at h
      obtain ⟨hg, hr⟩ := h
      subst hg; subst hr; subst hgt
      exact ⟨rfl, by simp, by simp⟩
    · rw [if_neg hgt] at h
      by_cases hnl : c = '\n'
      · rw [if_pos hnl] at h
        exact absurd h (by simp)
      · rw [if_neg hnl] at h
        cases hf : findGt cs with
        | none => rw [hf] at h; exact absurd h (by simp)
        | some pr =>
          obtain ⟨g0, r0⟩ := pr
          rw [hf] at h
          simp only [Option.some.injEq, Prod.mk.injEq] at h
          obtain ⟨hg, hr⟩ := h
          subst hr
          obtain ⟨hdec, hgt0, hnl0⟩ := ih hf
          subst hg
          refine ⟨by rw [hdec]; rfl, ?_, ?_⟩
          · intro hx
            rcases List.mem_cons.mp hx with hx | hx
            · exact hgt hx.symm
            · exact hgt0 hx
          · intro hx
            rcases List.mem_cons.mp hx with hx | hx
            · exact hnl hx.symm
            · exact hnl0 hx

theorem findGt_complete :
    ∀ {g : List Char} (r : List Char), '>' ∉ g → '\n' ∉ g →
      findGt (g ++ '>' :: r) = some (g, r) := by
  intro g
  induction g with
  | nil => intro r _ _; rfl
  | cons c cs ih =>
    intro r hgt hnl
    have hcgt : ¬c = '>' := by
      intro h
      subst h
      exact hgt (List.mem_cons_self _ _)
    have hcnl : ¬c = '\n' := by
      intro h
      subst h
      exact hnl (List.mem_cons_self _ _)
    rw [List.cons_append, findGt, if_neg hcgt, if_neg hcnl]
    rw [ih r (fun h => hgt (List.mem_cons_of_mem c h))
        (fun h => hnl (List.mem_cons_of_mem c h))]

theorem findGt_break_none :
    ∀ {x1 : List Char} (z : List Char), '>' ∉ x1 →
      findGt (x1 ++ '\n' :: z) = none := by
  intro x1
  induction x1 with
  | nil => intro z _; rfl
  | cons c cs ih =>
    intro z hgt
    have hcgt : ¬c = '>' := by
      intro h
      subst h
      exact hgt (List.mem_cons_self _ _)
    rw [List.cons_append, findGt, if_neg hcgt]
    by_cases hnl : c = '\n'
    · rw [if_pos hnl]
    · rw [if_neg hnl, ih z (fun h => hgt (List.mem_cons_of_mem c h))]

theorem findGt_none_break :
    ∀ {x : List Char} {w y : List Char}, findGt (x ++ w ++ '>' :: y) = none →
      '>' ∉ w → '\n' ∉ w →
      ∃ x1 x2, x = x1 ++ '\n' :: x2 ∧ '>' ∉ x1 := by
  intro x
  induction x with
  | nil =>
    intro w y h hw hnl
    rw [List.nil_append, findGt_complete y hw hnl] at h
    exact absurd h (by simp)
  | cons c cs ih =>
    intro w y h hw hnl
    rw [List.cons_append, List.cons_append, findGt] at h
    by_cases hgt : c = '>'
    · rw [if_pos hgt] at h
      exact absurd h (by simp)
    · rw [if_neg hgt] at h
      by_cases hc : c = '\n'
      · exact ⟨[], cs, by simp [hc], by simp⟩
      · rw [if_neg hc] at h
        have hrec : findGt (cs ++ w ++ '>' :: y) = none := by
          cases hf : findGt (cs ++ w ++ '>' :: y) with
          | none => rfl
          | some pr =>
            obtain ⟨g0, r0⟩ := pr
            rw [hf] at h
            exact absurd h (by simp)
        obtain ⟨x1, x2, hdec, hx1⟩ := ih hrec hw hnl
        refine ⟨c :: x1, x2, by rw [hdec]; rfl, ?_⟩
        intro hx
        rcases List.mem_cons.mp hx with hx | hx
        · exact hgt hx.symm
        · exact hx1 hx

theorem scanECB_sound :
    ∀ {s a g r : List Char}, scanECB s = some (a, g, r) →
      s = a ++ ecbTag ++ g ++ '>' :: r ∧ '>' ∉ g ∧ '\n' ∉ g := by
  intro s
  induction s with
  | nil => intro a g r h; simp [scanECB] at h
  | cons c cs ih =>
    intro a g r h
    rw [scanECB] at h
    by_cases htag : (c :: cs).take 18 = ecbTag
    · rw [if_pos htag] at h
      cases hf : findGt ((c :: cs).drop 18) with
      | some pr =>
        obtain ⟨g0, r0⟩ := pr
        rw [hf] at h
        simp only [Option.some.injEq, Prod.mk.injEq] at h
        obtain ⟨ha, hg, hr⟩ := h
        subst ha; subst hg; subst hr
        obtain ⟨hdec, hgt, hnl⟩ := findGt_sound hf
        refine ⟨?_, hgt, hnl⟩
        conv_lhs => rw [← List.take_append_drop 18 (c :: cs)]
        rw [htag, hdec]
        rfl
      | none =>
        rw [hf] at h
        cases hs : scanECB cs with
        | none => rw [hs] at h; exact absurd h (by simp)
        | some pr =>
          obtain ⟨a0, ⟨g0, r0⟩⟩ := pr
          rw [hs] at h
          simp only [Option.map_some', Option.some.injEq, Prod.mk.injEq] at h
          obtain ⟨ha, hg0, hr0⟩ := h
          subst hg0; subst hr0
          obtain ⟨hdec, hgt, hnl⟩ := ih hs
          subst ha
          refine ⟨?_, hgt, hnl⟩
          rw [hdec]
          rfl
    · rw [if_neg htag] at h
      cases hs : scanECB cs with
      | none => rw [hs] at h; exact absurd h (by simp)
      | some pr =>
        obtain ⟨a0, ⟨g0, r0⟩⟩ := pr
        rw [hs] at h
        simp only [Option.map_some', Option.some.injEq, Prod.mk.injEq] at h
        obtain ⟨ha, hg0, hr0⟩ := h
        subst hg0; subst hr0
        obtain ⟨hdec, hgt, hnl⟩ := ih hs
        subst ha
        refine ⟨?_, hgt, hnl⟩
        rw [hdec]
        rfl

theorem take_tag (X : List Char) : (ecbTag ++ X).take 18 = ecbTag := by
  have h18 : 18 ≤ ecbTag.length := by decide
  rw [take_append_left _ _ h18]
  decide

theorem scanECB_at_tag (g' r' : List Char) (h1 : '>' ∉ g') (h2 : '\n' ∉ g') :
    scanECB (ecbTag ++ g' ++ '>' :: r') = some ([], g', r') := by
  have e : (ecbTag ++ g' ++ '>' :: r' : List Char) =
      '<' :: ("eslint-code-block".data ++ (g' ++ '>' :: r')) := rfl
  rw [e, scanECB]
  have htake : ('<' :: ("eslint-code-block".data ++ (g' ++ '>' :: r'))).take 18 = ecbTag := by
    rw [← e]
    exact take_tag _
  rw [if_pos htake]
  have hdrop : ('<' :: ("eslint-code-block".data ++ (g' ++ '>' :: r'))).drop 18 =
      g' ++ '>' :: r' := by
    rw [← e]
    have h0 := drop_append_len ecbTag (g' ++ '>' :: r') 0
    rw [show ecbTag.length + 0 = 18 from rfl] at h0
    simpa using h0
  rw [hdrop, findGt_complete r' h1 h2]

/-- Replacing the group and the tail of the leftmost
`<eslint-code-block...>` match by any `>`-free, newline-free group and
any tail leaves the match position unchanged. -/
theorem scanECB_transfer :
    ∀ (a : List Char) {g r : List Char} (g' r' : List Char),
      '>' ∉ g → '\n' ∉ g → '>' ∉ g' → '\n' ∉ g' →
      scanECB (a ++ ecbTag ++ g ++ '>' :: r) = some (a, g, r) →
      scanECB (a ++ ecbTag ++ g' ++ '>' :: r') = some (a, g', r') := by
  intro a
  induction a with
  | nil =>
    intro g r g' r' _ _ hg1 hg2 _
    exact scanECB_at_tag g' r' hg1 hg2
  | cons c a2 ih =>
    intro g r g' r' hgo1 hgo2 hg1 hg2 h
    rw [show ((c :: a2) ++ ecbTag ++ g ++ '>' :: r : List Char) =
        c :: (a2 ++ ecbTag ++ g ++ '>' :: r) from rfl] at h
    rw [scanECB] at h
    rw [show ((c :: a2) ++ ecbTag ++ g' ++ '>' :: r' : List Char) =
        c :: (a2 ++ ecbTag ++ g' ++ '>' :: r') from rfl]
    rw [scanECB]
    have hlen18 : 18 ≤ (c :: (a2 ++ ecbTag)).length := by
      simp only [List.length_append, List.length_cons]
      have he : ecbTag.length = 18 := rfl
      omega
    have eo3 : (c :: (a2 ++ ecbTag ++ g ++ '>' :: r) : List Char) =
        (c :: (a2 ++ ecbTag)) ++ (g ++ '>' :: r) := by
      simp [List.append_assoc]
    have en3 : (c :: (a2 ++ ecbTag ++ g' ++ '>' :: r') : List Char) =
        (c :: (a2 ++ ecbTag)) ++ (g' ++ '>' :: r') := by
      simp [List.append_assoc]
    have htakeiff : ((c :: (a2 ++ ecbTag ++ g ++ '>' :: r)).take 18 = ecbTag) ↔
        ((c :: (a2 ++ ecbTag ++ g' ++ '>' :: r')).take 18 = ecbTag) := by
      rw [eo3, en3, take_append_left _ _ hlen18, take_append_left _ _ hlen18]
    by_cases htag : (c :: (a2 ++ ecbTag ++ g ++ '>' :: r)).take 18 = ecbTag
    · rw [if_pos htag] at h
      rw [if_pos (htakeiff.mp htag)]
      have hdo : (c :: (a2 ++ ecbTag ++ g ++ '>' :: r)).drop 18 =
          (c :: (a2 ++ ecbTag)).drop 18 ++ (g ++ '>' :: r) := by
        rw [eo3]
        exact List.drop_append_of_le_length hlen18
      have hdn : (c :: (a2 ++ ecbTag ++ g' ++ '>' :: r')).drop 18 =
          (c :: (a2 ++ ecbTag)).drop 18 ++ (g' ++ '>' :: r') := by
        rw [en3]
        exact List.drop_append_of_le_length hlen18
      rw [hdo] at h
      rw [hdn]
      cases hf : findGt ((c :: (a2 ++ ecbTag)).drop 18 ++ (g ++ '>' :: r)) with
      | some pr =>
        obtain ⟨g0, r0⟩ := pr
        rw [hf] at h
        simp at h
      | none =>
        rw [hf] at h
        have hf2 : findGt ((c :: (a2 ++ ecbTag)).drop 18 ++ g ++ '>' :: r) = none := by
          rw [List.append_assoc]
          exact hf
        obtain ⟨x1, x2, hW, hx1⟩ := findGt_none_break hf2 hgo1 hgo2
        have hfn : findGt ((c :: (a2 ++ ecbTag)).drop 18 ++ (g' ++ '>' :: r')) = none := by
          rw [hW]
          have e4 : (x1 ++ '\n' :: x2) ++ (g' ++ '>' :: r') =
              x1 ++ '\n' :: (x2 ++ (g' ++ '>' :: r')) := by
            simp
          rw [e4]
          exact findGt_break_none _ hx1
        rw [hfn]
        cases hs : scanECB (a2 ++ ecbTag ++ g ++ '>' :: r) with
        | none =>
          rw [hs] at h
          simp at h
        | some pr =>
          obtain ⟨a0, g0, r0⟩ := pr
          rw [hs] at h
          simp only [Option.map_some', Option.some.injEq, Prod.mk.injEq, List.cons.injEq] at h
          obtain ⟨⟨_, ha⟩, hg0, hr0⟩ := h
          subst ha; subst hg0; subst hr0
          rw [ih g' r' hgo1 hgo2 hg1 hg2 hs]
          rfl
    · rw [if_neg htag] at h
      rw [if_neg (fun hn => htag (htakeiff.mpr hn))]
      cases hs : scanECB (a2 ++ ecbTag ++ g ++ '>' :: r) with
      | none =>
        rw [hs] at h
        simp at h
      | some pr =>
        obtain ⟨a0, g0, r0⟩ := pr
        rw [hs] at h
        simp only [Option.map_some', Option.some.injEq, Prod.mk.injEq, List.cons.injEq] at h
        obtain ⟨⟨_, ha⟩, hg0, hr0⟩ := h
        subst ha; subst hg0; subst hr0
        rw [ih g' r' hgo1 hgo2 hg1 hg2 hs]
        rfl

theorem wsSplit_ne_nil : ∀ l : List Char, wsSplit l ≠ [] := by
  intro l
  induction l with
  | nil => simp [wsSplit]
  | cons c cs ih =>
    rw [wsSplit]
    by_cases hc : isWs c
    · simp [hc]
    · simp only [hc, if_false]
      cases hs : wsSplit cs with
      | nil => exact absurd hs ih
      | cons t ts => simp

theorem wsSplit_chunk :
    ∀ (l : List Char) (t : List Char), t ∈ wsSplit l →
      ∀ c ∈ t, isWs c = false ∧ c ∈ l := by
  intro l
  induction l with
  | nil =>
    intro t ht c hc
    simp [wsSplit] at ht
    subst ht
    simp at hc
  | cons x xs ih =>
    intro t ht c hc
    rw [wsSplit] at ht
    by_cases hx : isWs x
    · simp only [hx, if_true, List.mem_cons] at ht
      rcases ht with ht | ht
      · subst ht; simp at hc
      · obtain ⟨h1, h2⟩ := ih t ht c hc
        exact ⟨h1, List.mem_cons_of_mem x h2⟩
    · simp only [hx, if_false] at ht
      cases hs : wsSplit xs with
      | nil => exact absurd hs (wsSplit_ne_nil xs)
      | cons t0 ts =>
        rw [hs] at ht
        rcases List.mem_cons.mp ht with ht | ht
        · subst ht
          rcases List.mem_cons.mp hc with hc | hc
          · subst hc
            exact ⟨by simpa using hx, List.mem_cons_self _ _⟩
          · obtain ⟨h1, h2⟩ := ih t0 (by rw [hs]; exact List.mem_cons_self _ _) c hc
            exact ⟨h1, List.mem_cons_of_mem x h2⟩
        · obtain ⟨h1, h2⟩ := ih t (by rw [hs]; exact List.mem_cons_of_mem t0 ht) c hc
          exact ⟨h1, List.mem_cons_of_mem x h2⟩

theorem wsSplit_clean_append :
    ∀ (t z : List Char) {h : List Char} {zt : List (List Char)},
      wsSplit z = h :: zt → (∀ c ∈ t, isWs c = false) →
      wsSplit (t ++ z) = (t ++ h) :: zt := by
  intro t
  induction t with
  | nil =>
    intro z h zt hz _
    simpa using hz
  | cons c cs ih =>
    intro z h zt hz hfree
    rw [List.cons_append, wsSplit]
    rw [if_neg (by simp [hfree c (List.mem_cons_self c cs)])]
    rw [ih z hz (fun x hx => hfree x (List.mem_cons_of_mem c hx))]
    rfl

theorem wsSplit_spjoin :
    ∀ ps : List (List Char),
      (∀ t ∈ ps, t ≠ [] ∧ ∀ c ∈ t, isWs c = false) →
      wsSplit ((ps.map (fun t => ' ' :: t)).flatten) = [] :: ps := by
  intro ps
  induction ps with
  | nil => intro _; rfl
  | cons t ps2 ih =>
    intro hps
    have ht := hps t (List.mem_cons_self t ps2)
    have hps2 := fun u hu => hps u (List.mem_cons_of_mem t hu)
    simp only [List.map_cons, List.flatten_cons]
    rw [List.cons_append, wsSplit, if_pos (by simp [isWs])]
    rw [wsSplit_clean_append t _ (ih hps2) ht.2]
    rw [List.append_nil]

theorem mem_spjoin :
    ∀ (ps : List (List Char)) (c : Char),
      c ∈ (ps.map (fun t => ' ' :: t)).flatten → c = ' ' ∨ ∃ t ∈ ps, c ∈ t := by
  intro ps c hc
  rw [List.mem_flatten] at hc
  obtain ⟨l, hl, hcl⟩ := hc
  rw [List.mem_map] at hl
  obtain ⟨t, ht, rfl⟩ := hl
  rcases List.mem_cons.mp hcl with hc0 | hc0
  · exact Or.inl hc0
  · exact Or.inr ⟨t, ht, hc0⟩

theorem ecbTokens_spec (g : List Char) :
    ∀ t ∈ ecbTokens g, t ≠ [] ∧ t ≠ fixTok ∧ ∀ c ∈ t, isWs c = false ∧ c ∈ g := by
  intro t ht
  rw [ecbTokens, List.mem_filter] at ht
  obtain ⟨hmem, hcond⟩ := ht
  simp only [Bool.and_eq_true, bne_iff_ne, ne_eq] at hcond
  exact ⟨hcond.1, hcond.2, fun c hc => wsSplit_chunk g t hmem c hc⟩

theorem ecbTokens_repl (fx : Bool) (g : List Char) :
    ecbTokens ((((if fx then [fixTok] else []) ++ ecbTokens g).map
        (fun t => ' ' :: t)).flatten) = ecbTokens g := by
  have hps : ∀ t ∈ (if fx then [fixTok] else []) ++ ecbTokens g,
      t ≠ [] ∧ ∀ c ∈ t, isWs c = false := by
    intro t ht
    rcases List.mem_append.mp ht with ht | ht
    · cases fx with
      | true =>
        simp only [if_true, List.mem_singleton] at ht
        subst ht
        exact ⟨by decide, by decide⟩
      | false => simp at ht
    · obtain ⟨h1, _, h3⟩ := ecbTokens_spec g t ht
      exact ⟨h1, fun c hc => (h3 c hc).1⟩
  rw [ecbTokens, wsSplit_spjoin _ hps]
  rw [List.filter_cons]
  rw [if_neg (by simp)]
  rw [List.filter_append]
  have h1 : ((if fx then [fixTok] else []) : List (List Char)).filter
      (fun t => t != [] && t != fixTok) = [] := by
    cases fx with
    | true => simp [List.filter]
    | false => rfl
  rw [h1, List.nil_append]
  apply List.filter_eq_self.mpr
  intro t ht
  obtain ⟨ha, hb, _⟩ := ecbTokens_spec g t ht
  simp [ha, hb]

theorem ecbRepl_stable (fx : Bool) (g : List Char) :
    ecbRepl fx ((((if fx then [fixTok] else []) ++ ecbTokens g).map
        (fun t => ' ' :: t)).flatten) = ecbRepl fx g := by
  unfold ecbRepl
  rw [ecbTokens_repl]

theorem spjoin_clean (fx : Bool) (g : List Char) (hg : '>' ∉ g) :
    '>' ∉ (((if fx then [fixTok] else []) ++ ecbTokens g).map
        (fun t => ' ' :: t)).flatten ∧
    '\n' ∉ (((if fx then [fixTok] else []) ++ ecbTokens g).map
        (fun t => ' ' :: t)).flatten := by
  constructor
  · intro hc
    rcases mem_spjoin _ _ hc with hc | ⟨t, ht, hct⟩
    · exact absurd hc (by decide)
    · rcases List.mem_append.mp ht with ht | ht
      · cases fx with
        | true =>
          simp only [if_true, List.mem_singleton] at ht
          subst ht
          simp [fixTok] at hct
        | false => simp at ht
      · exact hg ((ecbTokens_spec g t ht).2.2 '>' hct).2
  · intro hc
    rcases mem_spjoin _ _ hc with hc | ⟨t, ht, hct⟩
    · exact absurd hc (by decide)
    · rcases List.mem_append.mp ht with ht | ht
      · cases fx with
        | true =>
          simp only [if_true, List.mem_singleton] at ht
          subst ht
          simp [fixTok] at hct
        | false => simp at ht
      · have := ((ecbTokens_spec g t ht).2.2 '\n' hct).1
        simp [isWs] at this

theorem ecbRepl_eq (fx : Bool) (g : List Char) :
    ecbRepl fx g = ecbTag ++ spJoin fx g ++ ['>'] := rfl

theorem ecbRepl_spJoin (fx : Bool) (g : List Char) :
    ecbRepl fx (spJoin fx g) = ecbRepl fx g :=
  ecbRepl_stable fx g

theorem spJoin_clean (fx : Bool) (g : List Char) (hg : '>' ∉ g) :
    '>' ∉ spJoin fx g ∧ '\n' ∉ spJoin fx g :=
  spjoin_clean fx g hg

theorem scanECB_len {s a g r : List Char} (h : scanECB s = some (a, g, r)) :
    r.length < s.length := by
  obtain ⟨hdec, _, _⟩ := scanECB_sound h
  rw [hdec]
  simp only [List.length_append, List.length_cons]
  omega

theorem ucbGo_none {fx : Bool} {fuel : Nat} {s : List Char}
    (h : scanECB s = none) : ucbGo fx fuel s = s := by
  cases fuel with
  | zero => rfl
  | succ f => rw [ucbGo, h]

theorem ucbGo_fuel :
    ∀ (n : Nat) (fx : Bool) (f1 f2 : Nat) (s : List Char),
      s.length ≤ n → s.length ≤ f1 → s.length ≤ f2 →
      ucbGo fx f1 s = ucbGo fx f2 s := by
  intro n
  induction n with
  | zero =>
    intro fx f1 f2 s hn _ _
    have hs : s = [] := List.length_eq_zero.mp (Nat.le_zero.mp hn)
    subst hs
    have hnil : scanECB ([] : List Char) = none := rfl
    rw [ucbGo_none hnil, ucbGo_none hnil]
  | succ n ih =>
    intro fx f1 f2 s hn h1 h2
    cases hscan : scanECB s with
    | none => rw [ucbGo_none hscan, ucbGo_none hscan]
    | some t =>
      obtain ⟨a, g, r⟩ := t
      have hr : r.length < s.length := scanECB_len hscan
      cases f1 with
      | zero => exfalso; omega
      | succ g1 =>
        cases f2 with
        | zero => exfalso; omega
        | succ g2 =>
          simp only [ucbGo, hscan]
          rw [ih fx g1 g2 r (by omega) (by omega) (by omega)]

theorem ucb_step (fx : Bool) {s a g r : List Char}
    (h : scanECB s = some (a, g, r)) :
    updateCodeBlocksContent fx s =
      a ++ ecbRepl fx g ++ updateCodeBlocksContent fx r := by
  have hr : r.length < s.length := scanECB_len h
  unfold updateCodeBlocksContent
  cases hsl : s.length with
  | zero => exfalso; omega
  | succ k =>
    simp only [ucbGo, h]
    rw [ucbGo_fuel k fx k r.length r (by omega) (by omega) (by omega)]

theorem ucb_idem_aux :
    ∀ (n : Nat) (fx : Bool) (s : List Char), s.length ≤ n →
      updateCodeBlocksContent fx (updateCodeBlocksContent fx s) =
        updateCodeBlocksContent fx s := by
  intro n
  induction n with
  | zero =>
    intro fx s hn
    have hs : s = [] := List.length_eq_zero.mp (Nat.le_zero.mp hn)
    subst hs
    rfl
  | succ n ih =>
    intro fx s hn
    cases hscan : scanECB s with
    | none =>
      have hfix : updateCodeBlocksContent fx s = s := by
        unfold updateCodeBlocksContent
        exact ucbGo_none hscan
      rw [hfix, hfix]
    | some t =>
      obtain ⟨a, g, r⟩ := t
      obtain ⟨hdec, hg1, hg2⟩ := scanECB_sound hscan
      have hr : r.length < s.length := scanECB_len hscan
      have hclean := spJoin_clean fx g hg1
      have hihr : updateCodeBlocksContent fx (updateCodeBlocksContent fx r) =
          updateCodeBlocksContent fx r := ih fx r (by omega)
      have hscan2 : scanECB (a ++ ecbTag ++ spJoin fx g ++
            '>' :: updateCodeBlocksContent fx r) =
          some (a, spJoin fx g, updateCodeBlocksContent fx r) := by
        apply scanECB_transfer a (spJoin fx g) (updateCodeBlocksContent fx r)
          hg1 hg2 hclean.1 hclean.2
        rw [← hdec]
        exact hscan
      have hshape : a ++ ecbRepl fx g ++ updateCodeBlocksContent fx r =
          a ++ ecbTag ++ spJoin fx g ++ '>' :: updateCodeBlocksContent fx r := by
        rw [ecbRepl_eq]
        simp [List.append_assoc]
      rw [ucb_step fx hscan, hshape, ucb_step fx hscan2, ecbRepl_spJoin, hihr]
      exact hshape

/-! ### adjustCodeBlocks: nlRun algebra and the second pattern -/

theorem nlRun_append (w x : List Char) :
    nlRun (w ++ x) =
      if nlRun w = w.length then w.length + nlRun x else nlRun w := by
  induction w with
  | nil => simp [nlRun]
  | cons c t ih =>
    by_cases h : c = '\n'
    · subst h
      have hl : nlRun ('\n' :: t ++ x) = nlRun (t ++ x) + 1 := by
        simp [nlRun]
      have hr : nlRun ('\n' :: t) = nlRun t + 1 := by simp [nlRun]
      rw [hl, ih, hr]
      by_cases ht : nlRun t = t.length
      · rw [if_pos ht, if_pos (by simp [ht]), List.length_cons]
        omega
      · rw [if_neg ht, if_neg (by simp only [List.length_cons]; omega)]
    · have hl : nlRun (c :: t ++ x) = 0 := by simp [nlRun, h]
      have hr : nlRun (c :: t) = 0 := by simp [nlRun, h]
      rw [hl, hr, if_neg (by simp)]

theorem nlRun_replicate (k : Nat) : nlRun (List.replicate k '\n') = k := by
  induction k with
  | zero => rfl
  | succ n ih => simp [List.replicate_succ, nlRun, ih]

theorem nlRun_replicate_append (k : Nat) (x : List Char) :
    nlRun (List.replicate k '\n' ++ x) = k + nlRun x := by
  rw [nlRun_append, nlRun_replicate, List.length_replicate, if_pos rfl]

theorem take_nlRun (m : List Char) :
    m.take (nlRun m) = List.replicate (nlRun m) '\n' := by
  induction m with
  | nil => rfl
  | cons c t ih =>
    by_cases h : c = '\n'
    · subst h
      have hr : nlRun ('\n' :: t) = nlRun t + 1 := by simp [nlRun]
      rw [hr]
      simp [List.replicate_succ, List.take_succ_cons, ih]
    · have hr : nlRun (c :: t) = 0 := by simp [nlRun, h]
      rw [hr]
      rfl

theorem bt3_len : bt3.length = 3 := rfl

theorem closeTag_len : closeTag.length = 20 := rfl

theorem closeTag_eq : closeTag = '<' :: "/eslint-code-block>".data := by decide

theorem app4 {α : Type} (a b c d : List α) :
    a ++ b ++ c ++ d = a ++ (b ++ (c ++ d)) := by
  simp [List.append_assoc]

theorem nlRun_closeTag (x : List Char) : nlRun (closeTag ++ x) = 0 := by
  rw [closeTag_eq]
  simp [nlRun]

theorem nlRun_bt3 (x : List Char) : nlRun (bt3 ++ x) = 0 := by
  simp [bt3, nlRun]

theorem bt3_take20_ne (x : List Char) : (bt3 ++ x).take 20 ≠ closeTag := by
  intro h
  have hh := congrArg (fun l => l.head?) h
  rw [closeTag_eq] at hh
  simp [bt3] at hh

theorem r2Head_eq (s : List Char) :
    r2Head s =
      if s.take 3 = bt3 then
        if 1 ≤ nlRun (s.drop 3) ∧
            ((s.drop 3).drop (nlRun (s.drop 3))).take 20 = closeTag then
          some (nlRun (s.drop 3), ((s.drop 3).drop (nlRun (s.drop 3))).drop 20)
        else none
      else none := rfl

theorem r2Head_sound {s : List Char} {k : Nat} {r : List Char}
    (h : r2Head s = some (k, r)) :
    s = bt3 ++ List.replicate k '\n' ++ closeTag ++ r ∧ 1 ≤ k := by
  rw [r2Head_eq] at h
  by_cases h3 : s.take 3 = bt3
  · rw [if_pos h3] at h
    by_cases hc : 1 ≤ nlRun (s.drop 3) ∧
        ((s.drop 3).drop (nlRun (s.drop 3))).take 20 = closeTag
    · rw [if_pos hc] at h
      rcases hc with ⟨hk1, hct⟩
      simp only [Option.some.injEq, Prod.mk.injEq] at h
      obtain ⟨hk, hr⟩ := h
      subst hk
      refine ⟨?_, hk1⟩
      conv_lhs => rw [← List.take_append_drop 3 s]
      rw [h3]
      conv_lhs =>
        rw [← List.take_append_drop (nlRun (s.drop 3)) (s.drop 3)]
      rw [take_nlRun]
      conv_lhs =>
        rw [← List.take_append_drop 20 ((s.drop 3).drop (nlRun (s.drop 3)))]
      rw [hct, hr]
      simp [List.append_assoc]
    · rw [if_neg hc] at h
      exact absurd h (by simp)
  · rw [if_neg h3] at h
    exact absurd h (by simp)

theorem r2Head_build (k : Nat) (r : List Char) (hk : 1 ≤ k) :
    r2Head (bt3 ++ List.replicate k '\n' ++ closeTag ++ r) = some (k, r) := by
  have h3 : (bt3 ++ List.replicate k '\n' ++ closeTag ++ r).take 3 = bt3 := by
    rw [app4, take_append_left _ _ (by rw [bt3_len])]
    rfl
  have hd : (bt3 ++ List.replicate k '\n' ++ closeTag ++ r).drop 3 =
      List.replicate k '\n' ++ (closeTag ++ r) := by
    rw [app4, List.drop_left' bt3_len]
  have hnl : nlRun (List.replicate k '\n' ++ (closeTag ++ r)) = k := by
    rw [nlRun_replicate_append, nlRun_closeTag]
    omega
  have hct : (closeTag ++ r).take 20 = closeTag := by
    rw [take_append_left _ _ (le_of_eq closeTag_len.symm)]
    decide
  rw [r2Head_eq, if_pos h3, hd, hnl,
      List.drop_left' (List.length_replicate k '\n'),
      if_pos ⟨hk, hct⟩, List.drop_left' closeTag_len]

theorem r2Head_none_take3 {s : List Char} (h3 : ¬ s.take 3 = bt3) :
    r2Head s = none := by
  rw [r2Head_eq, if_neg h3]

theorem r2Head_none_cond {s : List Char}
    (h : ¬ (1 ≤ nlRun (s.drop 3) ∧
      ((s.drop 3).drop (nlRun (s.drop 3))).take 20 = closeTag)) :
    r2Head s = none := by
  rw [r2Head_eq]
  by_cases h3 : s.take 3 = bt3
  · rw [if_pos h3, if_neg h]
  · rw [if_neg h3]

theorem r2Head_seam (u : List Char) {k k' : Nat} (r r' : List Char)
    (hk : 1 ≤ k) (hk' : 1 ≤ k')
    (h : r2Head (u ++ bt3 ++ List.replicate k '\n' ++ closeTag ++ r) = none) :
    r2Head (u ++ bt3 ++ List.replicate k' '\n' ++ closeTag ++ r') = none := by
  rcases u with _ | ⟨c, _ | ⟨d, _ | ⟨e, w⟩⟩⟩
  · rw [List.nil_append] at h
    rw [r2Head_build k r hk] at h
    simp at h
  · apply r2Head_none_cond
    rw [show (([c] ++ bt3 ++ List.replicate k' '\n' ++ closeTag ++ r').drop 3 :
        List Char) = '`' :: (List.replicate k' '\n' ++ closeTag ++ r') from rfl]
    simp [nlRun]
  · apply r2Head_none_cond
    rw [show (([c, d] ++ bt3 ++ List.replicate k' '\n' ++ closeTag ++ r').drop 3 :
        List Char) = '`' :: '`' :: (List.replicate k' '\n' ++ closeTag ++ r') from rfl]
    simp [nlRun]
  · have hdK : ((c :: d :: e :: w) ++ bt3 ++ List.replicate k '\n' ++
        closeTag ++ r).drop 3 =
        w ++ bt3 ++ List.replicate k '\n' ++ closeTag ++ r := rfl
    have hdK' : ((c :: d :: e :: w) ++ bt3 ++ List.replicate k' '\n' ++
        closeTag ++ r').drop 3 =
        w ++ bt3 ++ List.replicate k' '\n' ++ closeTag ++ r' := rfl
    have htK : ((c :: d :: e :: w) ++ bt3 ++ List.replicate k '\n' ++
        closeTag ++ r).take 3 = [c, d, e] := rfl
    have htK' : ((c :: d :: e :: w) ++ bt3 ++ List.replicate k' '\n' ++
        closeTag ++ r').take 3 = [c, d, e] := rfl
    by_cases h3 : ([c, d, e] : List Char) = bt3
    · have eK : w ++ bt3 ++ List.replicate k '\n' ++ closeTag ++ r =
          w ++ (bt3 ++ (List.replicate k '\n' ++ (closeTag ++ r))) := by
        simp [List.append_assoc]
      have eK' : w ++ bt3 ++ List.replicate k' '\n' ++ closeTag ++ r' =
          w ++ (bt3 ++ (List.replicate k' '\n' ++ (closeTag ++ r'))) := by
        simp [List.append_assoc]
      have hnlK : nlRun (w ++ bt3 ++ List.replicate k '\n' ++ closeTag ++ r) =
          if nlRun w = w.length then w.length else nlRun w := by
        rw [eK, nlRun_append]
        by_cases hw : nlRun w = w.length
        · rw [if_pos hw, if_pos hw, nlRun_bt3]
          omega
        · rw [if_neg hw, if_neg hw]
      have hnlK' : nlRun (w ++ bt3 ++ List.replicate k' '\n' ++ closeTag ++ r') =
          if nlRun w = w.length then w.length else nlRun w := by
        rw [eK', nlRun_append]
        by_cases hw : nlRun w = w.length
        · rw [if_pos hw, if_pos hw, nlRun_bt3]
          omega
        · rw [if_neg hw, if_neg hw]
      by_cases hw : nlRun w = w.length
      · apply r2Head_none_cond
        rw [hdK', hnlK', if_pos hw, eK', List.drop_left]
        rintro ⟨_, hcl⟩
        exact bt3_take20_ne _ hcl
      · have hjlt : nlRun w < w.length := lt_of_le_of_ne (nlRun_le w) hw
        by_cases h20 : 20 ≤ (w.drop (nlRun w)).length
        · by_cases hcnd : 1 ≤ nlRun w ∧ (w.drop (nlRun w)).take 20 = closeTag
          · exfalso
            apply absurd h
            rw [r2Head_eq, htK, if_pos h3, hdK, hnlK, if_neg hw, eK,
                List.drop_append_of_le_length (le_of_lt hjlt),
                take_append_left _ _ h20, if_pos hcnd]
            simp
          · apply r2Head_none_cond
            rw [hdK', hnlK', if_neg hw, eK',
                List.drop_append_of_le_length (le_of_lt hjlt),
                take_append_left _ _ h20]
            exact hcnd
        · apply r2Head_none_cond
          rw [hdK', hnlK', if_neg hw, eK',
              List.drop_append_of_le_length (le_of_lt hjlt)]
          rintro ⟨_, hcl⟩
          rw [List.take_append_eq_append_take,
              List.take_of_length_le (by omega)] at hcl
          obtain ⟨n0, hn0⟩ : ∃ n0, 20 - (w.drop (nlRun w)).length = n0 + 1 :=
            ⟨19 - (w.drop (nlRun w)).length, by omega⟩
          rw [hn0] at hcl
          rw [show (bt3 ++ (List.replicate k' '\n' ++ (closeTag ++ r'))).take (n0 + 1) =
              '`' :: (('`' :: '`' :: (List.replicate k' '\n' ++ (closeTag ++ r'))).take n0)
              from rfl] at hcl
          have hmem : '`' ∈ closeTag := by
            rw [← hcl]
            exact List.mem_append_right _ (List.mem_cons_self _ _)
          exact absurd hmem (by decide)
    · apply r2Head_none_take3
      rw [htK']
      exact h3

theorem scanR2_sound :
    ∀ {s a : List Char} {k : Nat} {r : List Char},
      scanR2 s = some (a, k, r) →
      s = a ++ bt3 ++ List.replicate k '\n' ++ closeTag ++ r ∧ 1 ≤ k := by
  intro s
  induction s with
  | nil => intro a k r h; simp [scanR2] at h
  | cons c cs ih =>
    intro a k r h
    rw [scanR2] at h
    cases hh : r2Head (c :: cs) with
    | some p =>
      obtain ⟨k0, r0⟩ := p
      rw [hh] at h
      simp only [Option.some.injEq, Prod.mk.injEq] at h
      obtain ⟨ha, hk, hr⟩ := h
      subst ha; subst hk; subst hr
      obtain ⟨hdec, h1⟩ := r2Head_sound hh
      refine ⟨?_, h1⟩
      rw [List.nil_append]
      exact hdec
    | none =>
      rw [hh] at h
      cases hs : scanR2 cs with
      | none => rw [hs] at h; simp at h
      | some q =>
        obtain ⟨a2, k2, rr⟩ := q
        rw [hs] at h
        simp only [Option.some.injEq, Prod.mk.injEq] at h
        obtain ⟨ha, hk, hr⟩ := h
        subst hk; subst hr
        obtain ⟨hdec, h1⟩ := ih hs
        refine ⟨?_, h1⟩
        rw [← ha, hdec]
        rfl

theorem scanR2_at (k : Nat) (r : List Char) (hk : 1 ≤ k) :
    scanR2 (bt3 ++ List.replicate k '\n' ++ closeTag ++ r) = some ([], k, r) := by
  rw [show (bt3 ++ List.replicate k '\n' ++ closeTag ++ r : List Char) =
      '`' :: ('`' :: '`' :: (List.replicate k '\n' ++ closeTag ++ r)) from rfl, scanR2]
  rw [show r2Head ('`' :: ('`' :: '`' :: (List.replicate k '\n' ++ closeTag ++ r))) =
      some (k, r) from r2Head_build k r hk]

theorem scanR2_transfer :
    ∀ (a : List Char) {k : Nat} {r : List Char} (k' : Nat) (r' : List Char),
      1 ≤ k' →
      scanR2 (a ++ bt3 ++ List.replicate k '\n' ++ closeTag ++ r) = some (a, k, r) →
      scanR2 (a ++ bt3 ++ List.replicate k' '\n' ++ closeTag ++ r') =
        some (a, k', r') := by
  intro a
  induction a with
  | nil =>
    intro k r k' r' hk' _
    exact scanR2_at k' r' hk'
  | cons c a2 ih =>
    intro k r k' r' hk' h
    rw [show ((c :: a2) ++ bt3 ++ List.replicate k '\n' ++ closeTag ++ r : List Char) =
        c :: (a2 ++ bt3 ++ List.replicate k '\n' ++ closeTag ++ r) from rfl,
        scanR2] at h
    cases hh : r2Head (c :: (a2 ++ bt3 ++ List.replicate k '\n' ++ closeTag ++ r)) with
    | some p =>
      obtain ⟨k0, r0⟩ := p
      rw [hh] at h
      simp at h
    | none =>
      rw [hh] at h
      cases hs : scanR2 (a2 ++ bt3 ++ List.replicate k '\n' ++ closeTag ++ r) with
      | none => rw [hs] at h; simp at h
      | some q =>
        obtain ⟨a0, k0, rr⟩ := q
        rw [hs] at h
        simp only [Option.some.injEq, Prod.mk.injEq] at h
        obtain ⟨ha, hk0, hr0⟩ := h
        have ha2 : a0 = a2 := by
          have := congrArg List.tail ha
          simpa using this
        rw [ha2, hk0, hr0] at hs
        have hk1 : 1 ≤ k := (scanR2_sound hs).2
        have hh' : r2Head (c :: (a2 ++ bt3 ++ List.replicate k' '\n' ++
            closeTag ++ r')) = none :=
          r2Head_seam (c :: a2) r r' hk1 hk' hh
        rw [show ((c :: a2) ++ bt3 ++ List.replicate k' '\n' ++ closeTag ++ r' :
            List Char) =
            c :: (a2 ++ bt3 ++ List.replicate k' '\n' ++ closeTag ++ r') from rfl,
            scanR2, hh', ih k' r' hk' hs]

theorem r2_len {s a : List Char} {k : Nat} {r : List Char}
    (h : scanR2 s = some (a, k, r)) : r.length < s.length := by
  obtain ⟨hdec, _⟩ := scanR2_sound h
  rw [hdec]
  simp only [List.length_append, List.length_replicate]
  have : 0 < bt3.length := by rw [bt3_len]; omega
  omega

theorem r2Go_none {fuel : Nat} {s : List Char} (h : scanR2 s = none) :
    r2Go fuel s = s := by
  cases fuel with
  | zero => rfl
  | succ f => rw [r2Go, h]

theorem r2Go_fuel :
    ∀ (n f1 f2 : Nat) (s : List Char),
      s.length ≤ n → s.length ≤ f1 → s.length ≤ f2 →
      r2Go f1 s = r2Go f2 s := by
  intro n
  induction n with
  | zero =>
    intro f1 f2 s hn _ _
    have hs : s = [] := List.length_eq_zero.mp (Nat.le_zero.mp hn)
    subst hs
    have hnil : scanR2 ([] : List Char) = none := rfl
    rw [r2Go_none hnil, r2Go_none hnil]
  | succ n ih =>
    intro f1 f2 s hn h1 h2
    cases hscan : scanR2 s with
    | none => rw [r2Go_none hscan, r2Go_none hscan]
    | some t =>
      obtain ⟨a, k, r⟩ := t
      have hr : r.length < s.length := r2_len hscan
      cases f1 with
      | zero => exfalso; omega
      | succ g1 =>
        cases f2 with
        | zero => exfalso; omega
        | succ g2 =>
          simp only [r2Go, hscan]
          rw [ih g1 g2 r (by omega) (by omega) (by omega)]

theorem r2_step {s a : List Char} {k : Nat} {r : List Char}
    (h : scanR2 s = some (a, k, r)) :
    r2 s = a ++ bt3 ++ '\n' :: '\n' :: closeTag ++ r2 r := by
  have hr : r.length < s.length := r2_len h
  unfold r2
  cases hsl : s.length with
  | zero => exfalso; omega
  | succ m =>
    simp only [r2Go, h]
    rw [r2Go_fuel m m r.length r (by omega) (by omega) (by omega)]

theorem r2_shape (a R : List Char) :
    a ++ bt3 ++ '\n' :: '\n' :: closeTag ++ R =
      a ++ bt3 ++ List.replicate 2 '\n' ++ closeTag ++ R := by
  simp [List.append_assoc, List.replicate_succ]

theorem r2_idem_aux :
    ∀ (n : Nat) (s : List Char), s.length ≤ n → r2 (r2 s) = r2 s := by
  intro n
  induction n with
  | zero =>
    intro s hn
    have hs : s = [] := List.length_eq_zero.mp (Nat.le_zero.mp hn)
    subst hs
    rfl
  | succ n ih =>
    intro s hn
    cases hscan : scanR2 s with
    | none =>
      have hfix : r2 s = s := by
        unfold r2
        exact r2Go_none hscan
      rw [hfix, hfix]
    | some t =>
      obtain ⟨a, k, r⟩ := t
      obtain ⟨hdec, hk⟩ := scanR2_sound hscan
      have hr : r.length < s.length := r2_len hscan
      have hihr : r2 (r2 r) = r2 r := ih r (by omega)
      have hscan2 : scanR2 (a ++ bt3 ++ List.replicate 2 '\n' ++ closeTag ++ r2 r) =
          some (a, 2, r2 r) := by
        apply scanR2_transfer a 2 (r2 r) (by omega)
        rw [← hdec]
        exact hscan
      have hshape := r2_shape a (r2 r)
      rw [r2_step hscan, hshape, r2_step hscan2, hihr]
      exact hshape

theorem r2_idem (s : List Char) : r2 (r2 s) = r2 s :=
  r2_idem_aux s.length s (le_refl _)

theorem ecbTag_len : ecbTag.length = 18 := rfl

theorem bt3_take3 : bt3.take 3 = bt3 := rfl

theorem gtTailCont_build (k : Nat) (b : List Char) (hk : 1 ≤ k) :
    gtTailCont (List.replicate k '\n' ++ bt3 ++ b) = true := by
  have e : List.replicate k '\n' ++ bt3 ++ b =
      List.replicate k '\n' ++ (bt3 ++ b) := by rw [List.append_assoc]
  unfold gtTailCont
  rw [e, nlRun_replicate_append, nlRun_bt3, Nat.add_zero,
      List.drop_left' (List.length_replicate k '\n'),
      take_append_left _ _ (le_of_eq bt3_len.symm), bt3_take3]
  simp [hk]

theorem gtTail_decomp {m : List Char} (h : gtTailCont m = true) :
    m = List.replicate (nlRun m) '\n' ++ bt3 ++ m.drop (nlRun m + 3) ∧
      1 ≤ nlRun m := by
  unfold gtTailCont at h
  rw [Bool.and_eq_true, decide_eq_true_iff, beq_iff_eq] at h
  obtain ⟨h1, h2⟩ := h
  refine ⟨?_, h1⟩
  conv_lhs => rw [← List.take_append_drop (nlRun m) m]
  rw [take_nlRun]
  conv_lhs => rw [← List.take_append_drop 3 (m.drop (nlRun m))]
  rw [h2, drop_drop']
  simp [List.append_assoc]

theorem nlRun_gtArm (g2 x : List Char) :
    nlRun (g2 ++ '>' :: x) =
      if nlRun g2 = g2.length then g2.length else nlRun g2 := by
  rw [nlRun_append]
  by_cases hw : nlRun g2 = g2.length
  · rw [if_pos hw, if_pos hw, show nlRun ('>' :: x) = 0 from by simp [nlRun],
        Nat.add_zero]
  · rw [if_neg hw, if_neg hw]

theorem gtTail_indep (g2 x y : List Char) :
    gtTailCont (g2 ++ '>' :: x) = gtTailCont (g2 ++ '>' :: y) := by
  unfold gtTailCont
  rw [nlRun_gtArm g2 x, nlRun_gtArm g2 y]
  by_cases hw : nlRun g2 = g2.length
  · rw [if_pos hw, List.drop_left, List.drop_left]
    have hx : (('>' :: x).take 3 == bt3) = false := by
      rw [beq_eq_false_iff_ne]
      intro hcl
      rw [show ('>' :: x).take 3 = '>' :: x.take 2 from rfl] at hcl
      simp [bt3] at hcl
    have hy : (('>' :: y).take 3 == bt3) = false := by
      rw [beq_eq_false_iff_ne]
      intro hcl
      rw [show ('>' :: y).take 3 = '>' :: y.take 2 from rfl] at hcl
      simp [bt3] at hcl
    rw [hx, hy]
  · rw [if_neg hw]
    have hjle : nlRun g2 ≤ g2.length := nlRun_le g2
    rw [List.drop_append_of_le_length hjle, List.drop_append_of_le_length hjle]
    by_cases h3 : 3 ≤ (g2.drop (nlRun g2)).length
    · rw [take_append_left _ _ h3, take_append_left _ _ h3]
    · congr 1
      rw [List.take_append_eq_append_take, List.take_append_eq_append_take,
          List.take_of_length_le (by omega)]
      obtain ⟨n0, hn0⟩ : ∃ n0, 3 - (g2.drop (nlRun g2)).length = n0 + 1 :=
        ⟨2 - (g2.drop (nlRun g2)).length, by omega⟩
      rw [hn0]
      have hx : ((g2.drop (nlRun g2) ++ ('>' :: x).take (n0 + 1)) == bt3) = false := by
        rw [beq_eq_false_iff_ne]
        intro hcl
        rw [show ('>' :: x).take (n0 + 1) = '>' :: x.take n0 from rfl] at hcl
        have hmem : '>' ∈ bt3 := by
          rw [← hcl]
          exact List.mem_append_right _ (List.mem_cons_self _ _)
        exact absurd hmem (by decide)
      have hy : ((g2.drop (nlRun g2) ++ ('>' :: y).take (n0 + 1)) == bt3) = false := by
        rw [beq_eq_false_iff_ne]
        intro hcl
        rw [show ('>' :: y).take (n0 + 1) = '>' :: y.take n0 from rfl] at hcl
        have hmem : '>' ∈ bt3 := by
          rw [← hcl]
          exact List.mem_append_right _ (List.mem_cons_self _ _)
        exact absurd hmem (by decide)
      rw [hx, hy]

theorem findQ_min :
    ∀ {s g m : List Char}, findQ s = some (g, m) →
      s = g ++ '>' :: m ∧ gtTailCont m = true ∧
      ∀ g1 g2, g = g1 ++ '>' :: g2 → gtTailCont (g2 ++ '>' :: m) = false := by
  intro s
  induction s with
  | nil => intro g m h; simp [findQ] at h
  | cons c cs ih =>
    intro g m h
    rw [findQ] at h
    by_cases hc : (decide (c = '>') && gtTailCont cs) = true
    · rw [if_pos hc] at h
      simp only [Option.some.injEq, Prod.mk.injEq] at h
      obtain ⟨hg, hm⟩ := h
      rw [Bool.and_eq_true, decide_eq_true_iff] at hc
      obtain ⟨hc1, hc2⟩ := hc
      subst hc1
      refine ⟨by rw [← hg, ← hm]; rfl, by rw [← hm]; exact hc2, ?_⟩
      intro g1 g2 hsplit
      rw [← hg] at hsplit
      exact absurd hsplit.symm (by simp)
    · rw [if_neg hc] at h
      cases hf : findQ cs with
      | none => rw [hf] at h; simp at h
      | some p =>
        obtain ⟨g0, m0⟩ := p
        rw [hf] at h
        simp only [Option.some.injEq, Prod.mk.injEq] at h
        obtain ⟨hg, hm⟩ := h
        obtain ⟨hdec, hgt, hmin⟩ := ih hf
        refine ⟨by rw [← hg, ← hm, hdec]; rfl, by rw [← hm]; exact hgt, ?_⟩
        intro g1 g2 hsplit
        rw [← hg] at hsplit
        cases g1 with
        | nil =>
          rw [List.nil_append] at hsplit
          injection hsplit with h1 h2
          have hfalse : gtTailCont cs = false := by
            cases hb : gtTailCont cs
            · rfl
            · exact absurd (by rw [h1, hb]; rfl) hc
          rw [← hm, ← h2, ← hdec]
          exact hfalse
        | cons d g1t =>
          injection hsplit with h1 h2
          rw [← hm]
          exact hmin g1t g2 h2

theorem findQ_build :
    ∀ (g t : List Char), gtTailCont t = true →
      (∀ g1 g2, g = g1 ++ '>' :: g2 → gtTailCont (g2 ++ '>' :: t) = false) →
      findQ (g ++ '>' :: t) = some (g, t) := by
  intro g
  induction g with
  | nil =>
    intro t hgt _
    rw [List.nil_append, findQ, if_pos (by simp [hgt])]
  | cons c g0 ih =>
    intro t hgt hmin
    rw [List.cons_append, findQ]
    have hcond : ¬ ((decide (c = '>') && gtTailCont (g0 ++ '>' :: t)) = true) := by
      intro hcon
      rw [Bool.and_eq_true, decide_eq_true_iff] at hcon
      obtain ⟨hc1, hc2⟩ := hcon
      have := hmin [] g0 (by rw [hc1]; rfl)
      rw [this] at hc2
      exact absurd hc2 (by simp)
    rw [if_neg hcond,
        ih t hgt (fun g1 g2 hs => hmin (c :: g1) g2 (by rw [hs]; rfl))]

theorem findQ_isSome :
    ∀ (x : List Char) (k : Nat) (b : List Char), 1 ≤ k →
      findQ (x ++ '>' :: (List.replicate k '\n' ++ bt3 ++ b)) ≠ none := by
  intro x
  induction x with
  | nil =>
    intro k b hk
    rw [List.nil_append, findQ, if_pos (by
      rw [Bool.and_eq_true]
      exact ⟨by simp, gtTailCont_build k b hk⟩)]
    simp
  | cons c x0 ih =>
    intro k b hk
    rw [List.cons_append, findQ]
    by_cases hc : (decide (c = '>') &&
        gtTailCont (x0 ++ '>' :: (List.replicate k '\n' ++ bt3 ++ b))) = true
    · rw [if_pos hc]
      simp
    · rw [if_neg hc]
      cases hf : findQ (x0 ++ '>' :: (List.replicate k '\n' ++ bt3 ++ b)) with
      | none => exact absurd hf (ih k b hk)
      | some p =>
        obtain ⟨g0, m0⟩ := p
        simp

theorem scanR1_sound :
    ∀ {s a g : List Char} {k : Nat} {rest : List Char},
      scanR1 s = some (a, g, k, rest) →
      s = a ++ ecbTag ++ g ++ '>' :: (List.replicate k '\n' ++ bt3 ++ rest) ∧
      1 ≤ k ∧
      ∀ g1 g2, g = g1 ++ '>' :: g2 →
        gtTailCont (g2 ++ '>' :: (List.replicate k '\n' ++ bt3 ++ rest)) = false := by
  intro s
  induction s with
  | nil => intro a g k rest h; simp [scanR1] at h
  | cons c cs ih =>
    intro a g k rest h
    rw [scanR1] at h
    by_cases htag : (c :: cs).take 18 = ecbTag
    · rw [if_pos htag] at h
      cases hf : findQ ((c :: cs).drop 18) with
      | some p =>
        obtain ⟨g0, m0⟩ := p
        rw [hf] at h
        simp only [Option.some.injEq, Prod.mk.injEq] at h
        obtain ⟨ha, hg, hk, hr⟩ := h
        obtain ⟨hdec18, hgt, hmin⟩ := findQ_min hf
        obtain ⟨hdm, h1⟩ := gtTail_decomp hgt
        refine ⟨?_, by rw [← hk]; exact h1, ?_⟩
        · conv_lhs => rw [← List.take_append_drop 18 (c :: cs)]
          rw [htag, hdec18, ← ha, ← hg, ← hk, ← hr]
          conv_lhs => rw [hdm]
          simp [List.append_assoc]
        · intro g1 g2 hsplit
          rw [← hg] at hsplit
          rw [← hk, ← hr, ← hdm]
          exact hmin g1 g2 hsplit
      | none =>
        rw [hf] at h
        cases hsc : scanR1 cs with
        | none => rw [hsc] at h; simp at h
        | some q =>
          obtain ⟨a0, g0, k0, rr⟩ := q
          rw [hsc] at h
          simp only [Option.some.injEq, Prod.mk.injEq] at h
          obtain ⟨ha, hg, hk, hr⟩ := h
          obtain ⟨hdec, h1, hmin⟩ := ih hsc
          refine ⟨by rw [← ha, ← hg, ← hk, ← hr, hdec]; rfl,
            by rw [← hk]; exact h1, ?_⟩
          intro g1 g2 hsplit
          rw [← hg] at hsplit
          rw [← hk, ← hr]
          exact hmin g1 g2 hsplit
    · rw [if_neg htag] at h
      cases hsc : scanR1 cs with
      | none => rw [hsc] at h; simp at h
      | some q =>
        obtain ⟨a0, g0, k0, rr⟩ := q
        rw [hsc] at h
        simp only [Option.some.injEq, Prod.mk.injEq] at h
        obtain ⟨ha, hg, hk, hr⟩ := h
        obtain ⟨hdec, h1, hmin⟩ := ih hsc
        refine ⟨by rw [← ha, ← hg, ← hk, ← hr, hdec]; rfl,
          by rw [← hk]; exact h1, ?_⟩
        intro g1 g2 hsplit
        rw [← hg] at hsplit
        rw [← hk, ← hr]
        exact hmin g1 g2 hsplit

theorem scanR1_at (g : List Char) (k : Nat) (rest : List Char) (hk : 1 ≤ k)
    (hmin : ∀ g1 g2, g = g1 ++ '>' :: g2 →
      gtTailCont (g2 ++ '>' :: (List.replicate k '\n' ++ bt3 ++ rest)) = false) :
    scanR1 (ecbTag ++ g ++ '>' :: (List.replicate k '\n' ++ bt3 ++ rest)) =
      some ([], g, k, rest) := by
  have e : (ecbTag ++ g ++ '>' :: (List.replicate k '\n' ++ bt3 ++ rest) :
      List Char) =
      '<' :: ("eslint-code-block".data ++
        (g ++ '>' :: (List.replicate k '\n' ++ bt3 ++ rest))) := rfl
  rw [e, scanR1]
  have htake : ('<' :: ("eslint-code-block".data ++
      (g ++ '>' :: (List.replicate k '\n' ++ bt3 ++ rest)))).take 18 = ecbTag := by
    rw [← e, List.append_assoc]
    exact take_tag _
  rw [if_pos htake]
  have hdrop : ('<' :: ("eslint-code-block".data ++
      (g ++ '>' :: (List.replicate k '\n' ++ bt3 ++ rest)))).drop 18 =
      g ++ '>' :: (List.replicate k '\n' ++ bt3 ++ rest) := by
    rw [← e, List.append_assoc]
    have h0 := drop_append_len ecbTag
      (g ++ '>' :: (List.replicate k '\n' ++ bt3 ++ rest)) 0
    rw [show ecbTag.length + 0 = 18 from rfl] at h0
    simpa using h0
  rw [hdrop, findQ_build g _ (gtTailCont_build k rest hk) hmin]
  show some ([], g, nlRun (List.replicate k '\n' ++ bt3 ++ rest),
      (List.replicate k '\n' ++ bt3 ++ rest).drop
        (nlRun (List.replicate k '\n' ++ bt3 ++ rest) + 3)) = some ([], g, k, rest)
  have hnlM : nlRun (List.replicate k '\n' ++ bt3 ++ rest) = k := by
    rw [List.append_assoc, nlRun_replicate_append, nlRun_bt3]
    omega
  rw [hnlM]
  have hdropM : (List.replicate k '\n' ++ bt3 ++ rest).drop (k + 3) = rest := by
    rw [List.append_assoc]
    have h0 := drop_append_len (List.replicate k '\n') (bt3 ++ rest) 3
    rw [List.length_replicate] at h0
    rw [h0]
    rfl
  rw [hdropM]

theorem scanR1_transfer :
    ∀ (a : List Char) {g : List Char} {k : Nat} {rest : List Char}
      (k' : Nat) (rest' : List Char), 1 ≤ k' →
      scanR1 (a ++ ecbTag ++ g ++ '>' ::
        (List.replicate k '\n' ++ bt3 ++ rest)) = some (a, g, k, rest) →
      scanR1 (a ++ ecbTag ++ g ++ '>' ::
        (List.replicate k' '\n' ++ bt3 ++ rest')) = some (a, g, k', rest') := by
  intro a
  induction a with
  | nil =>
    intro g k rest k' rest' hk' h
    have hsound := scanR1_sound h
    have hmin' : ∀ g1 g2, g = g1 ++ '>' :: g2 →
        gtTailCont (g2 ++ '>' :: (List.replicate k' '\n' ++ bt3 ++ rest')) =
          false := by
      intro g1 g2 hs
      rw [gtTail_indep g2 _ (List.replicate k '\n' ++ bt3 ++ rest)]
      exact hsound.2.2 g1 g2 hs
    exact scanR1_at g k' rest' hk' hmin'
  | cons c a2 ih =>
    intro g k rest k' rest' hk' h
    have hsound := scanR1_sound h
    have hk1 : 1 ≤ k := hsound.2.1
    have h18 : (18 : Nat) ≤ ((c :: a2) ++ ecbTag ++ g).length := by
      simp only [List.length_append, List.length_cons, ecbTag_len]
      omega
    rw [show ((c :: a2) ++ ecbTag ++ g ++ '>' ::
        (List.replicate k '\n' ++ bt3 ++ rest) : List Char) =
        c :: (a2 ++ ecbTag ++ g ++ '>' ::
        (List.replicate k '\n' ++ bt3 ++ rest)) from rfl, scanR1] at h
    by_cases htag : (c :: (a2 ++ ecbTag ++ g ++ '>' ::
        (List.replicate k '\n' ++ bt3 ++ rest))).take 18 = ecbTag
    · rw [if_pos htag] at h
      cases hf : findQ ((c :: (a2 ++ ecbTag ++ g ++ '>' ::
          (List.replicate k '\n' ++ bt3 ++ rest))).drop 18) with
      | some p =>
        obtain ⟨g0, m0⟩ := p
        rw [hf] at h
        simp at h
      | none =>
        exfalso
        have hP : (c :: (a2 ++ ecbTag ++ g ++ '>' ::
            (List.replicate k '\n' ++ bt3 ++ rest))).drop 18 =
            ((c :: a2) ++ ecbTag ++ g).drop 18 ++ '>' ::
              (List.replicate k '\n' ++ bt3 ++ rest) := by
          show (((c :: a2) ++ ecbTag ++ g) ++ '>' ::
              (List.replicate k '\n' ++ bt3 ++ rest)).drop 18 = _
          exact List.drop_append_of_le_length h18
        rw [hP] at hf
        exact findQ_isSome _ k rest hk1 hf
    · rw [if_neg htag] at h
      cases hsc : scanR1 (a2 ++ ecbTag ++ g ++ '>' ::
          (List.replicate k '\n' ++ bt3 ++ rest)) with
      | none => rw [hsc] at h; simp at h
      | some q =>
        obtain ⟨a0, g0, k0, rr⟩ := q
        rw [hsc] at h
        simp only [Option.some.injEq, Prod.mk.injEq] at h
        obtain ⟨ha, hg0, hk0, hr0⟩ := h
        have ha2 : a0 = a2 := by
          have := congrArg List.tail ha
          simpa using this
        rw [ha2, hg0, hk0, hr0] at hsc
        have htag' : ¬ (c :: (a2 ++ ecbTag ++ g ++ '>' ::
            (List.replicate k' '\n' ++ bt3 ++ rest'))).take 18 = ecbTag := by
          intro hcon
          have hcon' : (((c :: a2) ++ ecbTag ++ g) ++ '>' ::
              (List.replicate k' '\n' ++ bt3 ++ rest')).take 18 = ecbTag := hcon
          rw [take_append_left _ _ h18] at hcon'
          apply htag
          show (((c :: a2) ++ ecbTag ++ g) ++ '>' ::
              (List.replicate k '\n' ++ bt3 ++ rest)).take 18 = ecbTag
          rw [take_append_left _ _ h18]
          exact hcon'
        rw [show ((c :: a2) ++ ecbTag ++ g ++ '>' ::
            (List.replicate k' '\n' ++ bt3 ++ rest') : List Char) =
            c :: (a2 ++ ecbTag ++ g ++ '>' ::
            (List.replicate k' '\n' ++ bt3 ++ rest')) from rfl,
            scanR1, if_neg htag', ih k' rest' hk' hsc]

theorem scanR1_len {s a g : List Char} {k : Nat} {rest : List Char}
    (h : scanR1 s = some (a, g, k, rest)) : rest.length < s.length := by
  obtain ⟨hdec, _, _⟩ := scanR1_sound h
  rw [hdec]
  simp only [List.length_append, List.length_cons, List.length_replicate]
  have : 0 < bt3.length := by rw [bt3_len]; omega
  omega

theorem r1Go_none {fuel : Nat} {s : List Char} (h : scanR1 s = none) :
    r1Go fuel s = s := by
  cases fuel with
  | zero => rfl
  | succ f => rw [r1Go, h]

theorem r1Go_fuel :
    ∀ (n f1 f2 : Nat) (s : List Char),
      s.length ≤ n → s.length ≤ f1 → s.length ≤ f2 →
      r1Go f1 s = r1Go f2 s := by
  intro n
  induction n with
  | zero =>
    intro f1 f2 s hn _ _
    have hs : s = [] := List.length_eq_zero.mp (Nat.le_zero.mp hn)
    subst hs
    have hnil : scanR1 ([] : List Char) = none := rfl
    rw [r1Go_none hnil, r1Go_none hnil]
  | succ n ih =>
    intro f1 f2 s hn h1 h2
    cases hscan : scanR1 s with
    | none => rw [r1Go_none hscan, r1Go_none hscan]
    | some t =>
      obtain ⟨a, g, k, rest⟩ := t
      have hr : rest.length < s.length := scanR1_len hscan
      cases f1 with
      | zero => exfalso; omega
      | succ g1 =>
        cases f2 with
        | zero => exfalso; omega
        | succ g2 =>
          simp only [r1Go, hscan]
          rw [ih g1 g2 rest (by omega) (by omega) (by omega)]

theorem r1_step {s a g : List Char} {k : Nat} {rest : List Char}
    (h : scanR1 s = some (a, g, k, rest)) :
    r1 s = a ++ ecbTag ++ g ++ '>' :: '\n' :: '\n' :: bt3 ++ r1 rest := by
  have hr : rest.length < s.length := scanR1_len h
  unfold r1
  cases hsl : s.length with
  | zero => exfalso; omega
  | succ m =>
    simp only [r1Go, h]
    rw [r1Go_fuel m m rest.length rest (by omega) (by omega) (by omega)]

theorem r1_shape (a g R : List Char) :
    a ++ ecbTag ++ g ++ '>' :: '\n' :: '\n' :: bt3 ++ R =
      a ++ ecbTag ++ g ++ '>' :: (List.replicate 2 '\n' ++ bt3 ++ R) := by
  simp [List.append_assoc, List.replicate]

theorem r1_idem_aux :
    ∀ (n : Nat) (s : List Char), s.length ≤ n → r1 (r1 s) = r1 s := by
  intro n
  induction n with
  | zero =>
    intro s hn
    have hs : s = [] := List.length_eq_zero.mp (Nat.le_zero.mp hn)
    subst hs
    rfl
  | succ n ih =>
    intro s hn
    cases hscan : scanR1 s with
    | none =>
      have hfix : r1 s = s := by
        unfold r1
        exact r1Go_none hscan
      rw [hfix, hfix]
    | some t =>
      obtain ⟨a, g, k, rest⟩ := t
      obtain ⟨hdec, hk, _⟩ := scanR1_sound hscan
      have hr : rest.length < s.length := scanR1_len hscan
      have hihr : r1 (r1 rest) = r1 rest := ih rest (by omega)
      have hscan2 : scanR1 (a ++ ecbTag ++ g ++ '>' ::
          (List.replicate 2 '\n' ++ bt3 ++ r1 rest)) =
          some (a, g, 2, r1 rest) := by
        apply scanR1_transfer a 2 (r1 rest) (by omega)
        rw [← hdec]
        exact hscan
      have hshape := r1_shape a g (r1 rest)
      rw [r1_step hscan, hshape, r1_step hscan2, hihr]
      exact hshape

theorem r1_idem (s : List Char) : r1 (r1 s) = r1 s :=
  r1_idem_aux s.length s (le_refl _)

theorem GRel_refl : ∀ u : List Char, GRel u u := by
  intro u
  induction u with
  | nil => exact GRel.nil
  | cons c t ih => exact GRel.cons c t t ih

theorem GRel_append_left :
    ∀ (a : List Char) {u v : List Char}, GRel u v → GRel (a ++ u) (a ++ v) := by
  intro a
  induction a with
  | nil => intro u v h; exact h
  | cons c t ih => intro u v h; exact GRel.cons c _ _ (ih h)

theorem seg_head (i k0 : Nat) (x : List Char) (hk0 : 1 ≤ k0) :
    (List.replicate i '`' ++ List.replicate k0 '\n' ++ closeTag ++ x).head? =
      some (if i = 0 then '\n' else '`') := by
  cases i with
  | zero =>
    cases k0 with
    | zero => omega
    | succ k1 => rfl
  | succ i0 => rfl

theorem GRel_clean_pre {u v : List Char} (h : GRel u v) :
    ∀ w : List Char, '`' ∉ w → '\n' ∉ w →
      ((w <+: u ↔ w <+: v) ∧
       (w <+: u → GRel (u.drop w.length) (v.drop w.length))) := by
  induction h with
  | nil =>
    intro w _ _
    refine ⟨Iff.rfl, fun hw => ?_⟩
    rw [List.prefix_nil] at hw
    subst hw
    exact GRel.nil
  | cons c u0 v0 hsub ih =>
    intro w hbt hnl
    cases w with
    | nil =>
      exact ⟨iff_of_true List.nil_prefix List.nil_prefix,
        fun _ => GRel.cons c u0 v0 hsub⟩
    | cons d w2 =>
      have hbt2 : '`' ∉ w2 := fun hm => hbt (List.mem_cons_of_mem d hm)
      have hnl2 : '\n' ∉ w2 := fun hm => hnl (List.mem_cons_of_mem d hm)
      obtain ⟨hiff, hdrop⟩ := ih w2 hbt2 hnl2
      constructor
      · rw [List.cons_prefix_cons, List.cons_prefix_cons, hiff]
      · intro hw
        rw [List.cons_prefix_cons] at hw
        simpa using hdrop hw.2
  | seg i k u0 v0 hi hk hsub ih =>
    intro w hbt hnl
    cases w with
    | nil =>
      exact ⟨iff_of_true List.nil_prefix List.nil_prefix,
        fun _ => GRel.seg i k u0 v0 hi hk hsub⟩
    | cons d w2 =>
      have hno : ∀ (k0 : Nat) (x : List Char), 1 ≤ k0 →
          ¬ ((d :: w2) <+: (List.replicate i '`' ++ List.replicate k0 '\n' ++
            closeTag ++ x)) := by
        intro k0 x hk0 hw
        obtain ⟨t, ht⟩ := hw
        have hhd := congrArg List.head? ht
        rw [show ((d :: w2) ++ t : List Char).head? = some d from rfl,
            seg_head i k0 x hk0, Option.some.injEq] at hhd
        by_cases hi0 : i = 0
        · rw [if_pos hi0] at hhd
          apply hnl
          rw [← hhd]
          exact List.mem_cons_self d w2
        · rw [if_neg hi0] at hhd
          apply hbt
          rw [← hhd]
          exact List.mem_cons_self d w2
      exact ⟨⟨fun hw => absurd hw (hno k u0 hk),
          fun hw => absurd hw (hno 2 v0 (by omega))⟩,
        fun hw => absurd hw (hno k u0 hk)⟩

theorem rep_pre_rep_app :
    ∀ (j i : Nat) (y : List Char), y.head? ≠ some '`' →
      (List.replicate j '`' <+: (List.replicate i '`' ++ y) ↔ j ≤ i) := by
  intro j
  induction j with
  | zero =>
    intro i y _
    simp
  | succ j0 ih =>
    intro i y hy
    cases i with
    | zero =>
      constructor
      · intro hw
        exfalso
        obtain ⟨t, ht⟩ := hw
        rw [List.replicate_zero, List.nil_append] at ht
        apply hy
        rw [← ht]
        rfl
      · intro hw
        omega
    | succ i0 =>
      rw [show (List.replicate (j0+1) '`' : List Char) =
            '`' :: List.replicate j0 '`' from rfl,
          show (List.replicate (i0+1) '`' ++ y : List Char) =
            '`' :: (List.replicate i0 '`' ++ y) from rfl,
          List.cons_prefix_cons]
      simp only [true_and]
      rw [ih i0 y hy]
      omega

theorem GRel_bt_pre {u v : List Char} (h : GRel u v) :
    ∀ j : Nat, j ≤ 3 →
      ((List.replicate j '`' <+: u ↔ List.replicate j '`' <+: v) ∧
       (List.replicate j '`' <+: u → GRel (u.drop j) (v.drop j))) := by
  induction h with
  | nil =>
    intro j _
    refine ⟨Iff.rfl, fun hw => ?_⟩
    rw [List.prefix_nil] at hw
    have hj : j = 0 := by
      have := congrArg List.length hw
      simpa using this
    subst hj
    exact GRel.nil
  | cons c u0 v0 hsub ih =>
    intro j hj
    cases j with
    | zero => exact ⟨iff_of_true List.nil_prefix List.nil_prefix,
        fun _ => GRel.cons c u0 v0 hsub⟩
    | succ j0 =>
      obtain ⟨hiff, hdrop⟩ := ih j0 (by omega)
      constructor
      · rw [show (List.replicate (j0+1) '`' : List Char) =
              '`' :: List.replicate j0 '`' from rfl,
            List.cons_prefix_cons, List.cons_prefix_cons, hiff]
      · intro hw
        rw [show (List.replicate (j0+1) '`' : List Char) =
              '`' :: List.replicate j0 '`' from rfl,
            List.cons_prefix_cons] at hw
        simpa using hdrop hw.2
  | seg i k u0 v0 hi hk hsub ih =>
    intro j hj
    have hyk : ∀ (k0 : Nat), 1 ≤ k0 → ∀ x : List Char,
        (List.replicate k0 '\n' ++ (closeTag ++ x)).head? ≠ some '`' := by
      intro k0 hk0 x
      cases k0 with
      | zero => omega
      | succ k1 => simp [List.replicate_succ]
    have hiffu : ∀ (k0 : Nat), 1 ≤ k0 → ∀ x : List Char,
        (List.replicate j '`' <+:
          (List.replicate i '`' ++ List.replicate k0 '\n' ++ closeTag ++ x)) ↔
          j ≤ i := by
      intro k0 hk0 x
      rw [show List.replicate i '`' ++ List.replicate k0 '\n' ++ closeTag ++ x =
          List.replicate i '`' ++ (List.replicate k0 '\n' ++ (closeTag ++ x)) from by
        simp [List.append_assoc]]
      exact rep_pre_rep_app j i _ (hyk k0 hk0 x)
    have hdropu : ∀ (k0 : Nat) (x : List Char), j ≤ i →
        (List.replicate i '`' ++ List.replicate k0 '\n' ++ closeTag ++ x).drop j =
        List.replicate (i - j) '`' ++ List.replicate k0 '\n' ++ closeTag ++ x := by
      intro k0 x hji
      have e1 : (List.replicate i '`' : List Char) =
          List.replicate j '`' ++ List.replicate (i - j) '`' := by
        rw [← List.replicate_add]
        congr 1
        omega
      rw [e1]
      rw [show List.replicate j '`' ++ List.replicate (i - j) '`' ++
          List.replicate k0 '\n' ++ closeTag ++ x =
          List.replicate j '`' ++ (List.replicate (i - j) '`' ++
          List.replicate k0 '\n' ++ closeTag ++ x) from by
        simp only [List.append_assoc]]
      rw [List.drop_left' (List.length_replicate j '`')]
    constructor
    · rw [hiffu k hk u0, hiffu 2 (by omega) v0]
    · intro hw
      have hji : j ≤ i := (hiffu k hk u0).mp hw
      rw [hdropu k u0 hji, hdropu 2 v0 hji]
      exact GRel.seg (i - j) k u0 v0 (by omega) hk hsub

theorem take2_eq_iff_pre (l : List Char) :
    l.take 2 = ['`', '`'] ↔ List.replicate 2 '`' <+: l := by
  rw [List.prefix_iff_eq_take, List.length_replicate]
  constructor
  · intro h
    rw [h]
    rfl
  · intro h
    rw [← h]
    rfl

theorem GRel_afterRun {u v : List Char} (h : GRel u v) :
    ((u.drop (nlRun u)).take 3 = bt3 ↔ (v.drop (nlRun v)).take 3 = bt3) := by
  induction h with
  | nil => exact Iff.rfl
  | cons c u0 v0 hsub ih =>
    by_cases hc : c = '\n'
    · subst hc
      rw [show nlRun ('\n' :: u0) = nlRun u0 + 1 from by simp [nlRun],
          show nlRun ('\n' :: v0) = nlRun v0 + 1 from by simp [nlRun],
          List.drop_succ_cons, List.drop_succ_cons]
      exact ih
    · rw [show nlRun (c :: u0) = 0 from by simp [nlRun, hc],
          show nlRun (c :: v0) = 0 from by simp [nlRun, hc],
          List.drop_zero, List.drop_zero,
          show (c :: u0).take 3 = c :: u0.take 2 from rfl,
          show (c :: v0).take 3 = c :: v0.take 2 from rfl,
          show (bt3 : List Char) = '`' :: ['`', '`'] from rfl,
          List.cons.injEq, List.cons.injEq,
          take2_eq_iff_pre, take2_eq_iff_pre,
          (GRel_bt_pre hsub 2 (by omega)).1]
  | seg i k u0 v0 hi hk hsub ih =>
    have hcase : ∀ (k0 : Nat) (x : List Char), 1 ≤ k0 →
        (((List.replicate i '`' ++ List.replicate k0 '\n' ++ closeTag ++ x).drop
          (nlRun (List.replicate i '`' ++ List.replicate k0 '\n' ++ closeTag ++ x))).take 3
          = bt3 ↔ i = 3) := by
      intro k0 x hk0
      match i, hi with
      | 0, _ =>
        have e : (List.replicate 0 '`' ++ List.replicate k0 '\n' ++ closeTag ++ x :
            List Char) = List.replicate k0 '\n' ++ (closeTag ++ x) := by
          simp [List.append_assoc]
        rw [e, nlRun_replicate_append, nlRun_closeTag, Nat.add_zero,
            List.drop_left' (List.length_replicate k0 '\n'),
            take_append_left _ _ (by rw [closeTag_len]; omega)]
        constructor
        · intro hcl
          exact absurd hcl (by decide)
        · intro hcl
          omega
      | 1, _ =>
        obtain ⟨k1, rfl⟩ : ∃ k1, k0 = k1 + 1 := ⟨k0 - 1, by omega⟩
        have e0 : nlRun (List.replicate 1 '`' ++ List.replicate (k1+1) '\n' ++
            closeTag ++ x) = 0 := by
          simp [nlRun]
        rw [e0, List.drop_zero]
        constructor
        · intro hcl
          rw [show (List.replicate 1 '`' ++ List.replicate (k1+1) '\n' ++
              closeTag ++ x).take 3 =
              '`' :: '\n' :: (List.replicate k1 '\n' ++ closeTag ++ x).take 1
              from rfl] at hcl
          simp [bt3] at hcl
        · intro hcl
          omega
      | 2, _ =>
        obtain ⟨k1, rfl⟩ : ∃ k1, k0 = k1 + 1 := ⟨k0 - 1, by omega⟩
        have e0 : nlRun (List.replicate 2 '`' ++ List.replicate (k1+1) '\n' ++
            closeTag ++ x) = 0 := by
          simp [nlRun]
        rw [e0, List.drop_zero]
        constructor
        · intro hcl
          rw [show (List.replicate 2 '`' ++ List.replicate (k1+1) '\n' ++
              closeTag ++ x).take 3 = '`' :: '`' :: '\n' :: [] from rfl] at hcl
          simp [bt3] at hcl
        · intro hcl
          omega
      | 3, _ =>
        have e0 : nlRun (List.replicate 3 '`' ++ List.replicate k0 '\n' ++
            closeTag ++ x) = 0 := by
          simp [nlRun]
        rw [e0, List.drop_zero]
        constructor
        · intro _
          rfl
        · intro _
          rfl
    rw [hcase k u0 hk, hcase 2 v0 (by omega)]

theorem GRel_nlRun_eq {u v : List Char} (h : GRel u v) :
    (u.drop (nlRun u)).take 3 = bt3 → nlRun u = nlRun v := by
  induction h with
  | nil => intro _; rfl
  | cons c u0 v0 hsub ih =>
    by_cases hc : c = '\n'
    · subst hc
      rw [show nlRun ('\n' :: u0) = nlRun u0 + 1 from by simp [nlRun],
          show nlRun ('\n' :: v0) = nlRun v0 + 1 from by simp [nlRun],
          List.drop_succ_cons]
      intro hcond
      rw [ih hcond]
    · rw [show nlRun (c :: u0) = 0 from by simp [nlRun, hc],
          show nlRun (c :: v0) = 0 from by simp [nlRun, hc]]
      intro _
      rfl
  | seg i k u0 v0 hi hk hsub ih =>
    intro hcond
    match i, hi with
    | 0, _ =>
      exfalso
      have e : (List.replicate 0 '`' ++ List.replicate k '\n' ++ closeTag ++ u0 :
          List Char) = List.replicate k '\n' ++ (closeTag ++ u0) := by
        simp [List.append_assoc]
      rw [e, nlRun_replicate_append, nlRun_closeTag, Nat.add_zero,
          List.drop_left' (List.length_replicate k '\n'),
          take_append_left _ _ (by rw [closeTag_len]; omega)] at hcond
      exact absurd hcond (by decide)
    | 1, _ =>
      obtain ⟨k1, rfl⟩ : ∃ k1, k = k1 + 1 := ⟨k - 1, by omega⟩
      rw [show nlRun (List.replicate 1 '`' ++ List.replicate (k1+1) '\n' ++
          closeTag ++ u0) = 0 from by simp [nlRun],
          show nlRun (List.replicate 1 '`' ++ List.replicate 2 '\n' ++
          closeTag ++ v0) = 0 from by simp [nlRun]]
    | 2, _ =>
      obtain ⟨k1, rfl⟩ : ∃ k1, k = k1 + 1 := ⟨k - 1, by omega⟩
      rw [show nlRun (List.replicate 2 '`' ++ List.replicate (k1+1) '\n' ++
          closeTag ++ u0) = 0 from by simp [nlRun],
          show nlRun (List.replicate 2 '`' ++ List.replicate 2 '\n' ++
          closeTag ++ v0) = 0 from by simp [nlRun]]
    | 3, _ =>
      rw [show nlRun (List.replicate 3 '`' ++ List.replicate k '\n' ++
          closeTag ++ u0) = 0 from by simp [nlRun],
          show nlRun (List.replicate 3 '`' ++ List.replicate 2 '\n' ++
          closeTag ++ v0) = 0 from by simp [nlRun]]

theorem GRel_drop_rest {u v : List Char} (h : GRel u v) :
    (u.drop (nlRun u)).take 3 = bt3 →
      GRel (u.drop (nlRun u + 3)) (v.drop (nlRun v + 3)) := by
  induction h with
  | nil =>
    intro hcond
    exact absurd hcond (by decide)
  | cons c u0 v0 hsub ih =>
    by_cases hc : c = '\n'
    · subst hc
      rw [show nlRun ('\n' :: u0) = nlRun u0 + 1 from by simp [nlRun],
          show nlRun ('\n' :: v0) = nlRun v0 + 1 from by simp [nlRun],
          List.drop_succ_cons]
      intro hcond
      have := ih hcond
      show GRel (u0.drop (nlRun u0 + 3)) (v0.drop (nlRun v0 + 3))
      exact this
    · rw [show nlRun (c :: u0) = 0 from by simp [nlRun, hc],
          show nlRun (c :: v0) = 0 from by simp [nlRun, hc],
          List.drop_zero]
      intro hcond
      rw [show (c :: u0).take 3 = c :: u0.take 2 from rfl,
          show (bt3 : List Char) = '`' :: ['`', '`'] from rfl,
          List.cons.injEq] at hcond
      have hpre : List.replicate 2 '`' <+: u0 :=
        (take2_eq_iff_pre u0).mp hcond.2
      have := (GRel_bt_pre hsub 2 (by omega)).2 hpre
      show GRel (u0.drop 2) (v0.drop 2)
      exact this
  | seg i k u0 v0 hi hk hsub ih =>
    intro hcond
    match i, hi with
    | 0, _ =>
      exfalso
      have e : (List.replicate 0 '`' ++ List.replicate k '\n' ++ closeTag ++ u0 :
          List Char) = List.replicate k '\n' ++ (closeTag ++ u0) := by
        simp [List.append_assoc]
      rw [e, nlRun_replicate_append, nlRun_closeTag, Nat.add_zero,
          List.drop_left' (List.length_replicate k '\n'),
          take_append_left _ _ (by rw [closeTag_len]; omega)] at hcond
      exact absurd hcond (by decide)
    | 1, _ =>
      exfalso
      obtain ⟨k1, rfl⟩ : ∃ k1, k = k1 + 1 := ⟨k - 1, by omega⟩
      rw [show nlRun (List.replicate 1 '`' ++ List.replicate (k1+1) '\n' ++
          closeTag ++ u0) = 0 from by simp [nlRun], List.drop_zero,
          show (List.replicate 1 '`' ++ List.replicate (k1+1) '\n' ++
            closeTag ++ u0).take 3 =
            '`' :: '\n' :: (List.replicate k1 '\n' ++ closeTag ++ u0).take 1
            from rfl] at hcond
      simp [bt3] at hcond
    | 2, _ =>
      exfalso
      obtain ⟨k1, rfl⟩ : ∃ k1, k = k1 + 1 := ⟨k - 1, by omega⟩
      rw [show nlRun (List.replicate 2 '`' ++ List.replicate (k1+1) '\n' ++
          closeTag ++ u0) = 0 from by simp [nlRun], List.drop_zero,
          show (List.replicate 2 '`' ++ List.replicate (k1+1) '\n' ++
            closeTag ++ u0).take 3 = '`' :: '`' :: '\n' :: [] from rfl] at hcond
      simp [bt3] at hcond
    | 3, _ =>
      rw [show nlRun (List.replicate 3 '`' ++ List.replicate k '\n' ++
          closeTag ++ u0) = 0 from by simp [nlRun],
          show nlRun (List.replicate 3 '`' ++ List.replicate 2 '\n' ++
          closeTag ++ v0) = 0 from by simp [nlRun]]
      show GRel (List.replicate k '\n' ++ closeTag ++ u0)
        (List.replicate 2 '\n' ++ closeTag ++ v0)
      exact GRel.seg 0 k u0 v0 (by omega) hk hsub

theorem GRel_gtTail {u v : List Char} (h : GRel u v) :
    gtTailCont u = gtTailCont v := by
  unfold gtTailCont
  by_cases hbt : (u.drop (nlRun u)).take 3 = bt3
  · have hbv : (v.drop (nlRun v)).take 3 = bt3 := (GRel_afterRun h).mp hbt
    have h1 : nlRun u = nlRun v := GRel_nlRun_eq h hbt
    rw [hbt, hbv, h1]
  · have hbv : ¬ (v.drop (nlRun v)).take 3 = bt3 :=
      fun hx => hbt ((GRel_afterRun h).mpr hx)
    have e1 : ((u.drop (nlRun u)).take 3 == bt3) = false :=
      beq_eq_false_iff_ne.mpr hbt
    have e2 : ((v.drop (nlRun v)).take 3 == bt3) = false :=
      beq_eq_false_iff_ne.mpr hbv
    rw [e1, e2, Bool.and_false, Bool.and_false]

theorem findQ_push :
    ∀ (w t : List Char), '>' ∉ w →
      findQ (w ++ t) = (findQ t).map (fun p => (w ++ p.1, p.2)) := by
  intro w
  induction w with
  | nil =>
    intro t _
    rw [List.nil_append]
    cases hf : findQ t with
    | none => rfl
    | some p => simp
  | cons c w0 ih =>
    intro t hgt
    have hc : ¬ c = '>' := by
      intro he
      apply hgt
      rw [← he]
      exact List.mem_cons_self c w0
    rw [List.cons_append, findQ,
        if_neg (by simp [hc]),
        ih t (fun hm => hgt (List.mem_cons_of_mem c hm))]
    cases hf : findQ t with
    | none => rfl
    | some p => rfl

theorem findQ_GRel {u v : List Char} (h : GRel u v) :
    (findQ u = none ∧ findQ v = none) ∨
    ∃ g m g' m', findQ u = some (g, m) ∧ findQ v = some (g', m') ∧
      GRel m m' ∧ nlRun m = nlRun m' ∧ 1 ≤ nlRun m ∧
      (m.drop (nlRun m)).take 3 = bt3 ∧
      GRel (m.drop (nlRun m + 3)) (m'.drop (nlRun m' + 3)) := by
  induction h with
  | nil => exact Or.inl ⟨rfl, rfl⟩
  | cons c u0 v0 hsub ih =>
    by_cases hcond : (decide (c = '>') && gtTailCont u0) = true
    · have hcondv : (decide (c = '>') && gtTailCont v0) = true := by
        rw [← GRel_gtTail hsub]
        exact hcond
      have hc2 : gtTailCont u0 = true := by
        rw [Bool.and_eq_true] at hcond
        exact hcond.2
      have hdecomp : 1 ≤ nlRun u0 ∧ (u0.drop (nlRun u0)).take 3 = bt3 := by
        unfold gtTailCont at hc2
        rw [Bool.and_eq_true, decide_eq_true_iff, beq_iff_eq] at hc2
        exact hc2
      right
      refine ⟨[], u0, [], v0, ?_, ?_, hsub, GRel_nlRun_eq hsub hdecomp.2,
        hdecomp.1, hdecomp.2, GRel_drop_rest hsub hdecomp.2⟩
      · rw [findQ, if_pos hcond]
      · rw [findQ, if_pos hcondv]
    · have hcondv : ¬ (decide (c = '>') && gtTailCont v0) = true := by
        rw [← GRel_gtTail hsub]
        exact hcond
      have hu : findQ (c :: u0) =
          (findQ u0).map (fun p => (c :: p.1, p.2)) := by
        rw [findQ, if_neg hcond]
        cases hf : findQ u0 with
        | none => rfl
        | some p => rfl
      have hv : findQ (c :: v0) =
          (findQ v0).map (fun p => (c :: p.1, p.2)) := by
        rw [findQ, if_neg hcondv]
        cases hf : findQ v0 with
        | none => rfl
        | some p => rfl
      rcases ih with ⟨h1, h2⟩ | ⟨g, m, g', m', h1, h2, h3, h4, h5, h6, h7⟩
      · left
        rw [hu, hv, h1, h2]
        exact ⟨rfl, rfl⟩
      · right
        exact ⟨c :: g, m, c :: g', m',
          by rw [hu, h1]; rfl, by rw [hv, h2]; rfl, h3, h4, h5, h6, h7⟩
  | seg i k u0 v0 hi hk hsub ih =>
    have hct : (closeTag : List Char) = "</eslint-code-block".data ++ ['>'] := by
      decide
    have hW : ∀ (k0 : Nat), '>' ∉ (List.replicate i '`' ++
        List.replicate k0 '\n' ++ "</eslint-code-block".data : List Char) := by
      intro k0 hm
      rcases List.mem_append.mp hm with hm | hm
      · rcases List.mem_append.mp hm with hm | hm
        · rw [List.mem_replicate] at hm
          exact absurd hm.2 (by decide)
        · rw [List.mem_replicate] at hm
          exact absurd hm.2 (by decide)
      · exact absurd hm (by decide)
    have hblk : ∀ (k0 : Nat) (x : List Char),
        List.replicate i '`' ++ List.replicate k0 '\n' ++ closeTag ++ x =
        (List.replicate i '`' ++ List.replicate k0 '\n' ++
          "</eslint-code-block".data) ++ '>' :: x := by
      intro k0 x
      rw [hct]
      simp only [List.append_assoc, List.cons_append, List.singleton_append]
      rfl
    by_cases hgt : gtTailCont u0 = true
    · have hgtv : gtTailCont v0 = true := by
        rw [← GRel_gtTail hsub]
        exact hgt
      have hdecomp : 1 ≤ nlRun u0 ∧ (u0.drop (nlRun u0)).take 3 = bt3 := by
        unfold gtTailCont at hgt
        rw [Bool.and_eq_true, decide_eq_true_iff, beq_iff_eq] at hgt
        exact hgt
      right
      refine ⟨List.replicate i '`' ++ List.replicate k '\n' ++
          "</eslint-code-block".data, u0,
        List.replicate i '`' ++ List.replicate 2 '\n' ++
          "</eslint-code-block".data, v0, ?_, ?_, hsub,
        GRel_nlRun_eq hsub hdecomp.2, hdecomp.1, hdecomp.2,
        GRel_drop_rest hsub hdecomp.2⟩
      · rw [hblk k u0, findQ_push _ _ (hW k), findQ,
            if_pos (by simp [hgt])]
        simp
      · rw [hblk 2 v0, findQ_push _ _ (hW 2), findQ,
            if_pos (by simp [hgtv])]
        simp
    · have hgtv : ¬ gtTailCont v0 = true := by
        rw [← GRel_gtTail hsub]
        exact hgt
      have hu : findQ (List.replicate i '`' ++ List.replicate k '\n' ++
          closeTag ++ u0) = (findQ u0).map (fun p =>
            ((List.replicate i '`' ++ List.replicate k '\n' ++
              "</eslint-code-block".data) ++ '>' :: p.1, p.2)) := by
        rw [hblk k u0, findQ_push _ _ (hW k), findQ,
            if_neg (by simp [hgt])]
        cases hf : findQ u0 with
        | none => rfl
        | some p => rfl
      have hv : findQ (List.replicate i '`' ++ List.replicate 2 '\n' ++
          closeTag ++ v0) = (findQ v0).map (fun p =>
            ((List.replicate i '`' ++ List.replicate 2 '\n' ++
              "</eslint-code-block".data) ++ '>' :: p.1, p.2)) := by
        rw [hblk 2 v0, findQ_push _ _ (hW 2), findQ,
            if_neg (by simp [hgtv])]
        cases hf : findQ v0 with
        | none => rfl
        | some p => rfl
      rcases ih with ⟨h1, h2⟩ | ⟨g, m, g', m', h1, h2, h3, h4, h5, h6, h7⟩
      · left
        rw [hu, hv, h1, h2]
        exact ⟨rfl, rfl⟩
      · right
        exact ⟨(List.replicate i '`' ++ List.replicate k '\n' ++
            "</eslint-code-block".data) ++ '>' :: g, m,
          (List.replicate i '`' ++ List.replicate 2 '\n' ++
            "</eslint-code-block".data) ++ '>' :: g', m',
          by rw [hu, h1]; rfl, by rw [hv, h2]; rfl, h3, h4, h5, h6, h7⟩

theorem scanR1_push :
    ∀ (w t : List Char), '<' ∉ w →
      scanR1 (w ++ t) = (scanR1 t).map (fun x => (w ++ x.1, x.2)) := by
  intro w
  induction w with
  | nil =>
    intro t _
    rw [List.nil_append]
    cases hf : scanR1 t with
    | none => rfl
    | some x => simp
  | cons c w0 ih =>
    intro t hlt
    have hc : ¬ c = '<' := by
      intro he
      apply hlt
      rw [← he]
      exact List.mem_cons_self c w0
    have htag : ¬ ((c :: (w0 ++ t)).take 18 = ecbTag) := by
      intro hcl
      rw [show (c :: (w0 ++ t)).take 18 = c :: (w0 ++ t).take 17 from rfl,
          show (ecbTag : List Char) = '<' :: "eslint-code-block".data from rfl,
          List.cons.injEq] at hcl
      exact hc hcl.1
    rw [List.cons_append, scanR1, if_neg htag,
        ih t (fun hm => hlt (List.mem_cons_of_mem c hm))]
    cases hf : scanR1 t with
    | none => rfl
    | some x => rfl

theorem scanR1_ct_push (t : List Char) :
    scanR1 (closeTag ++ t) = (scanR1 t).map (fun x => (closeTag ++ x.1, x.2)) := by
  have hct0 : (closeTag ++ t : List Char) =
      '<' :: ("/eslint-code-block>".data ++ t) := rfl
  have htag : ¬ (('<' :: ("/eslint-code-block>".data ++ t)).take 18 = ecbTag) := by
    intro hcl
    rw [← hct0, take_append_left _ _ (by rw [closeTag_len]; omega)] at hcl
    exact absurd hcl (by decide)
  rw [hct0, scanR1, if_neg htag, scanR1_push _ t (by decide)]
  cases hf : scanR1 t with
  | none => rfl
  | some x => rfl

theorem scanR1_block (i k0 : Nat) (t : List Char) :
    scanR1 (List.replicate i '`' ++ List.replicate k0 '\n' ++ closeTag ++ t) =
      (scanR1 t).map (fun x =>
        (List.replicate i '`' ++ List.replicate k0 '\n' ++ closeTag ++ x.1,
          x.2)) := by
  have e : List.replicate i '`' ++ List.replicate k0 '\n' ++ closeTag ++ t =
      (List.replicate i '`' ++ List.replicate k0 '\n') ++ (closeTag ++ t) := by
    simp only [List.append_assoc]
  have hW : '<' ∉ (List.replicate i '`' ++ List.replicate k0 '\n' : List Char) := by
    intro hm
    rcases List.mem_append.mp hm with hm | hm <;>
      (rw [List.mem_replicate] at hm; exact absurd hm.2 (by decide))
  rw [e, scanR1_push _ _ hW, scanR1_ct_push]
  cases hf : scanR1 t with
  | none => rfl
  | some x => simp [List.append_assoc]

theorem take18_iff_pre (l : List Char) : l.take 18 = ecbTag ↔ ecbTag <+: l := by
  rw [List.prefix_iff_eq_take, ecbTag_len]
  exact eq_comm

theorem scanR1_GRel {u v : List Char} (h : GRel u v) :
    (scanR1 u = none ∧ scanR1 v = none) ∨
    ∃ a g k rest a' g' rest',
      scanR1 u = some (a, g, k, rest) ∧ scanR1 v = some (a', g', k, rest') ∧
      GRel rest rest' := by
  induction h with
  | nil => exact Or.inl ⟨rfl, rfl⟩
  | cons c u0 v0 hsub ih =>
    have hnode : GRel (c :: u0) (c :: v0) := GRel.cons c u0 v0 hsub
    by_cases htag : (c :: u0).take 18 = ecbTag
    · have hpre : ecbTag <+: (c :: u0) := (take18_iff_pre _).mp htag
      have hprev : ecbTag <+: (c :: v0) :=
        ((GRel_clean_pre hnode ecbTag (by decide) (by decide)).1).mp hpre
      have htagv : (c :: v0).take 18 = ecbTag := (take18_iff_pre _).mpr hprev
      have hdrel : GRel ((c :: u0).drop 18) ((c :: v0).drop 18) :=
        (GRel_clean_pre hnode ecbTag (by decide) (by decide)).2 hpre
      rcases findQ_GRel hdrel with ⟨hfu, hfv⟩ |
        ⟨g, m, g', m', hfu, hfv, hrel, hnl, h1, hbt, hrest⟩
      · have hu : scanR1 (c :: u0) =
            (scanR1 u0).map (fun x => (c :: x.1, x.2)) := by
          rw [scanR1, if_pos htag, hfu]
          cases hs : scanR1 u0 with
          | none => rfl
          | some q => rfl
        have hv : scanR1 (c :: v0) =
            (scanR1 v0).map (fun x => (c :: x.1, x.2)) := by
          rw [scanR1, if_pos htagv, hfv]
          cases hs : scanR1 v0 with
          | none => rfl
          | some q => rfl
        rcases ih with ⟨h1, h2⟩ | ⟨a, g, k, rest, a', g', rest', h1, h2, h3⟩
        · exact Or.inl ⟨by rw [hu, h1]; rfl, by rw [hv, h2]; rfl⟩
        · exact Or.inr ⟨c :: a, g, k, rest, c :: a', g', rest',
            by rw [hu, h1]; rfl, by rw [hv, h2]; rfl, h3⟩
      · right
        refine ⟨[], g, nlRun m, m.drop (nlRun m + 3),
          [], g', m'.drop (nlRun m' + 3), ?_, ?_, hrest⟩
        · rw [scanR1, if_pos htag, hfu]
        · rw [scanR1, if_pos htagv, hfv, hnl]
    · have hpre' : ¬ ecbTag <+: (c :: u0) :=
        fun hx => htag ((take18_iff_pre _).mpr hx)
      have htagv : ¬ (c :: v0).take 18 = ecbTag := by
        intro hx
        exact hpre' (((GRel_clean_pre hnode ecbTag (by decide) (by decide)).1).mpr
          ((take18_iff_pre _).mp hx))
      have hu : scanR1 (c :: u0) =
          (scanR1 u0).map (fun x => (c :: x.1, x.2)) := by
        rw [scanR1, if_neg htag]
        cases hs : scanR1 u0 with
        | none => rfl
        | some q => rfl
      have hv : scanR1 (c :: v0) =
          (scanR1 v0).map (fun x => (c :: x.1, x.2)) := by
        rw [scanR1, if_neg htagv]
        cases hs : scanR1 v0 with
        | none => rfl
        | some q => rfl
      rcases ih with ⟨h1, h2⟩ | ⟨a, g, k, rest, a', g', rest', h1, h2, h3⟩
      · exact Or.inl ⟨by rw [hu, h1]; rfl, by rw [hv, h2]; rfl⟩
      · exact Or.inr ⟨c :: a, g, k, rest, c :: a', g', rest',
          by rw [hu, h1]; rfl, by rw [hv, h2]; rfl, h3⟩
  | seg i k u0 v0 hi hk hsub ih =>
    rcases ih with ⟨h1, h2⟩ | ⟨a, g, kk, rest, a', g', rest', h1, h2, h3⟩
    · left
      rw [scanR1_block i k u0, scanR1_block i 2 v0, h1, h2]
      exact ⟨rfl, rfl⟩
    · right
      exact ⟨List.replicate i '`' ++ List.replicate k '\n' ++ closeTag ++ a,
        g, kk, rest,
        List.replicate i '`' ++ List.replicate 2 '\n' ++ closeTag ++ a',
        g', rest',
        by rw [scanR1_block i k u0, h1]; rfl,
        by rw [scanR1_block i 2 v0, h2]; rfl, h3⟩

theorem r1_fix_inv {u a g : List Char} {k : Nat} {rest : List Char}
    (hfix : r1 u = u) (hscan : scanR1 u = some (a, g, k, rest)) :
    k = 2 ∧ r1 rest = rest := by
  obtain ⟨hdec, hk, _⟩ := scanR1_sound hscan
  have hstep := r1_step hscan
  rw [hfix, hdec, r1_shape a g (r1 rest)] at hstep
  have hX : ('>' :: (List.replicate k '\n' ++ bt3 ++ rest) : List Char) =
      '>' :: (List.replicate 2 '\n' ++ bt3 ++ r1 rest) :=
    List.append_cancel_left hstep
  injection hX with _ hX2
  have hk2 : k = 2 := by
    have hnlX := congrArg nlRun hX2
    simp only [List.append_assoc] at hnlX
    rw [nlRun_replicate_append, nlRun_replicate_append,
        nlRun_bt3, nlRun_bt3] at hnlX
    omega
  subst hk2
  refine ⟨rfl, ?_⟩
  simp only [List.append_assoc] at hX2
  have h2 := List.append_cancel_left hX2
  have h3 := List.append_cancel_left h2
  exact h3.symm

theorem GRel_r1_fix_aux :
    ∀ (n : Nat) {u v : List Char}, v.length ≤ n →
      GRel u v → r1 u = u → r1 v = v := by
  intro n
  induction n with
  | zero =>
    intro u v hn _ _
    have hv : v = [] := List.length_eq_zero.mp (Nat.le_zero.mp hn)
    subst hv
    rfl
  | succ n ih =>
    intro u v hn hrel hfix
    rcases scanR1_GRel hrel with ⟨hu, hv⟩ |
      ⟨a, g, k, rest, a', g', rest', hu, hv, hrest⟩
    · unfold r1
      exact r1Go_none hv
    · obtain ⟨hk2, hfrest⟩ := r1_fix_inv hfix hu
      subst hk2
      have hlen : rest'.length < v.length := scanR1_len hv
      have hfix' : r1 rest' = rest' := ih (by omega) hrest hfrest
      obtain ⟨hdecv, _, _⟩ := scanR1_sound hv
      rw [r1_step hv, hfix', r1_shape a' g' rest', hdecv]

theorem GRel_r2_aux :
    ∀ (n : Nat) (s : List Char), s.length ≤ n → GRel s (r2 s) := by
  intro n
  induction n with
  | zero =>
    intro s hn
    have hs : s = [] := List.length_eq_zero.mp (Nat.le_zero.mp hn)
    subst hs
    exact GRel.nil
  | succ n ih =>
    intro s hn
    cases hscan : scanR2 s with
    | none =>
      have hfixv : r2 s = s := by
        unfold r2
        exact r2Go_none hscan
      rw [hfixv]
      exact GRel_refl s
    | some t =>
      obtain ⟨a, k, r⟩ := t
      obtain ⟨hdec, hk⟩ := scanR2_sound hscan
      have hr : r.length < s.length := r2_len hscan
      have hsub : GRel r (r2 r) := ih r (by omega)
      have hblk := GRel.seg 3 k r (r2 r) (by omega) hk hsub
      have hfull := GRel_append_left a hblk
      have e1 : a ++ (List.replicate 3 '`' ++ List.replicate k '\n' ++
          closeTag ++ r) = a ++ bt3 ++ List.replicate k '\n' ++ closeTag ++ r := by
        rw [show (List.replicate 3 '`' : List Char) = bt3 from rfl]
        simp only [List.append_assoc]
      have e2 : a ++ (List.replicate 3 '`' ++ List.replicate 2 '\n' ++
          closeTag ++ r2 r) =
          a ++ bt3 ++ List.replicate 2 '\n' ++ closeTag ++ r2 r := by
        rw [show (List.replicate 3 '`' : List Char) = bt3 from rfl]
        simp only [List.append_assoc]
      rw [e1, e2] at hfull
      rw [r2_step hscan, r2_shape a (r2 r), hdec]
      exact hfull

theorem GRel_r2 (s : List Char) : GRel s (r2 s) :=
  GRel_r2_aux s.length s (le_refl _)

theorem adjust_fix_r1 (s : List Char) :
    r1 (adjustCodeBlocksContent s) = adjustCodeBlocksContent s :=
  GRel_r1_fix_aux (r2 (r1 s)).length (le_refl _) (GRel_r2 (r1 s)) (r1_idem s)

theorem adjust_fix_r2 (s : List Char) :
    r2 (adjustCodeBlocksContent s) = adjustCodeBlocksContent s :=
  r2_idem (r1 s)

/-! ### C9 and C10: the spacing adjustment -/

/-- **C9 counterexample.** A document whose example-code-block opening tag
directly abuts the fenced code block (no newline at all) is NOT given a
blank line by `adjustCodeBlocks`: the first pattern requires at least one
newline (`\n+`), so the zero-newline abutment survives the adjustment, and
the opening tag is not separated from the following fence by a blank
line.  (The closing side of the same document does get its blank line.) -/
theorem c9_counterexample :
    adjustCodeBlocksContent
        ("<eslint-code-block>```js\nfoo\n```\n</eslint-code-block>\n").data =
      ("<eslint-code-block>```js\nfoo\n```\n\n</eslint-code-block>\n").data ∧
    ("<eslint-code-block>```").data <+:
      adjustCodeBlocksContent
        ("<eslint-code-block>```js\nfoo\n```\n</eslint-code-block>\n").data := by
  constructor
  · decide
  · decide

/-- **C9 (amended).** After the spacing adjustment, the adjusted text is a
fixed point of both of `adjustCodeBlocks`'s substitutions: every opening
`<eslint-code-block ...>` tag followed by a newline run and a fenced code
block already carries exactly one blank line (so the first substitution
changes nothing), and every fenced-code close followed by a newline run
and `</eslint-code-block>` already carries exactly one blank line (so the
second substitution changes nothing).  The original claim fails only for
tags that abut the fence with no newline at all, which neither pattern
matches. -/
theorem c9_adjust_fixed (s : List Char) :
    r1 (adjustCodeBlocksContent s) = adjustCodeBlocksContent s ∧
    r2 (adjustCodeBlocksContent s) = adjustCodeBlocksContent s :=
  ⟨adjust_fix_r1 s, adjust_fix_r2 s⟩

/-- **C10.** The code-block spacing normalization is idempotent: applying
`adjustCodeBlocks`'s pair of substitutions twice yields the same text as
applying it once, for every document text. -/
theorem c10_adjust_idempotent (s : List Char) :
    adjustCodeBlocksContent (adjustCodeBlocksContent s) =
      adjustCodeBlocksContent s := by
  have h1 : r1 (adjustCodeBlocksContent s) = adjustCodeBlocksContent s :=
    adjust_fix_r1 s
  show r2 (r1 (adjustCodeBlocksContent s)) = adjustCodeBlocksContent s
  rw [h1]
  exact adjust_fix_r2 s

/-! ### C6: the code-block tag rewrite is idempotent -/

/-- **C6.** The code-block attribute normalization is idempotent: for every
fixable flag and every document text (in particular one containing an
`<eslint-code-block someattr>` tag), applying the `updateCodeBlocks`
replacement twice yields the same text as applying it once. -/
theorem c6_code_blocks_idempotent (fx : Bool) (s : List Char) :
    updateCodeBlocksContent fx (updateCodeBlocksContent fx s) =
      updateCodeBlocksContent fx s :=
  ucb_idem_aux s.length fx s (le_refl _)

/-! ### C4: note order and the blank line -/

/-- C4: for a non-deprecated, fixable rule with a present category
array, the rewritten header carries the sorted preset-membership note,
then the fix-capability note, then exactly one blank line before the
rest of the document (which never starts with a further newline); and
the fix note is emitted whenever the rule is fixable, regardless of
deprecation state. -/
theorem c4_header_layout (r : Rule) (content : List Char) (cats : List String)
    (hd : r.deprecated = false) (hf : r.fixable = true)
    (hc : r.categories = some cats) (hne : cats ≠ [])
    (hcont : trimL content ≠ []) :
    (∃ pre rest,
      updateHeaderContent r content =
        pre ++
          ("# " ++ r.ruleId ++ "\n\n> " ++ r.description ++ "\n\n" ++
            presetNote (sortStrings cats) ++ "\n" ++ fixNote).data ++
          '\n' :: '\n' :: rest ∧
      rest.head? ≠ some '\n') ∧
    (∀ r' : Rule, r'.fixable = true → fixNote ∈ headerNotes r') := by
  constructor
  · unfold updateHeaderContent
    cases hfind : findHeader content with
    | some pr =>
      obtain ⟨pre, rest⟩ := pr
      refine ⟨pre, rest, ?_, findHeader_rest hfind⟩
      rw [headerStr_data r cats hd hf hc]
      simp [List.append_assoc]
    | none =>
      refine ⟨[], trimL content ++ ['\n'], ?_, ?_⟩
      · rw [headerStr_data r cats hd hf hc]
        simp [List.append_assoc]
      · cases htc : trimL content with
        | nil => exact absurd htc hcont
        | cons a t =>
          simp only [List.cons_append, List.head?_cons, ne_eq, Option.some.injEq]
          intro hEq
          have := trimL_head (c := a) (by rw [htc]; rfl)
          rw [hEq] at this
          simp [isWs] at this
  · intro r' hf'
    simp [headerNotes, hf']

/-- Witness for `c4_header_layout` at a concrete rule and document. -/
theorem c4_header_layout_witness :
    ((["strict", "recommended"] : List String) ≠ [] ∧ trimL "x\n".data ≠ []) ∧
    ((∃ pre rest,
      updateHeaderContent
          { ruleId := "yml/r", ruleName := "r", description := "D",
            categories := some ["strict", "recommended"], deprecated := false,
            fixable := true, replacedBy := none, extensionRule := false }
          "x\n".data =
        pre ++
          ("# " ++ "yml/r" ++ "\n\n> " ++ "D" ++ "\n\n" ++
            presetNote (sortStrings ["strict", "recommended"]) ++ "\n" ++ fixNote).data ++
          '\n' :: '\n' :: rest ∧
      rest.head? ≠ some '\n') ∧
    (∀ r' : Rule, r'.fixable = true → fixNote ∈ headerNotes r')) :=
  ⟨⟨by decide, by decide⟩,
    c4_header_layout
      { ruleId := "yml/r", ruleName := "r", description := "D",
        categories := some ["strict", "recommended"], deprecated := false,
        fixable := true, replacedBy := none, extensionRule := false }
      "x\n".data ["strict", "recommended"] rfl rfl rfl (by decide) (by decide)⟩

/-! ### C5: front-matter generation -/

/-- C5: the front-matter block consists of the four fixed keys; string
values are double-quoted after escaping exactly the backslash and
double-quote characters, the numeric value is emitted verbatim, and the
escaped value parses back to the original string. -/
theorem c5_front_matter (r : Rule) :
    computedIntro r =
      "---\n" ++
        ("pageClass: " ++ ("\"" ++ escS "rule-details" ++ "\"") ++ "\n" ++
          ("sidebarDepth: " ++ "0" ++ "\n" ++
            ("title: " ++ ("\"" ++ escS r.ruleId ++ "\"") ++ "\n" ++
              ("description: " ++ ("\"" ++ escS r.description ++ "\""))))) ++
        "\n---\n" ∧
    escS "rule-details" = "rule-details" ∧
    (∀ v : String, (escS v).data = perChar escChar v.data) ∧
    (∀ v : String, unescStr (escS v).data = some v.data) := by
  refine ⟨rfl, by decide, fun v => escStr_eq_perChar v.data, fun v => unesc_escStr v.data⟩

end UpdateDocs
